import Mathlib

/-!
Verification of the Orwell-CLI node-status renderer (orwell-cli.py).

The development shallowly embeds the program's data model and operations:
Python dicts become association lists or total functions, Python sets become
`Finset String`, floating point arithmetic becomes exact `ℚ` arithmetic,
fallible code (uncaught `ValueError` / `AttributeError` / `ZeroDivisionError`)
returns `Option`, and iterator state is threaded explicitly.
-/

namespace Orwell

/-- Helper for the Python string `in` operator: `strStarts n h` holds when
`n` is an initial segment of `h`. -/
def strStarts : List Char → List Char → Bool
  | [], _ => true
  | _ :: _, [] => false
  | a :: as, b :: bs => a == b && strStarts as bs

/-- Helper for the Python string `in` operator: contiguous-substring test on
character lists. -/
def strInL : List Char → List Char → Bool
  | n, [] => strStarts n []
  | n, h :: t => strStarts n (h :: t) || strInL n t

/-- Embedding of the Python expression `needle in hay` on strings:
`needle` occurs as a contiguous substring of `hay` (the empty string occurs
in every string). -/
def strIn (needle hay : String) : Bool :=
  strInL needle.toList hay.toList

/-- Embedding of Python `s.startswith(pre)` as a structural prefix test
(kept kernel-computable). -/
def pyStartsWith (s pre : String) : Bool :=
  strStarts pre.toList s.toList

/-- Embedding of `_filter` (orwell-cli.py lines 441-445): an empty boolean
list yields `False`, otherwise the conjunction `all(bool_list)`. -/
def _filter (bool_list : List Bool) : Bool :=
  if bool_list.length = 0 then false else bool_list.all id

/-- Per-job attribute record: the value type of a node's `job_info` dict
(orwell-cli.py lines 429-432). -/
structure JobRec where
  job_name : String
  user : String
  account : String
  job_partition : String
deriving DecidableEq, Repr

/-- Default job record created by the `job_info` defaultdict
(orwell-cli.py lines 429-432): every attribute is the empty string. -/
def defaultJobRec : JobRec := ⟨"", "", "", ""⟩

/-- Per-node record: the value type of the `node_info` dict
(orwell-cli.py lines 427-433).  Python sets become `Finset String`; the
`job_info` dict becomes an insertion-ordered association list. -/
structure NodeRec where
  glyph : String
  partition : Finset String
  feature : Finset String
  gpu_type : Finset String
  job_info : List (String × JobRec)
deriving DecidableEq

/-- Association-list lookup, embedding Python dict lookup `d[k]` /
`k in d` on insertion-ordered dicts. -/
def alookup {κ α : Type} [DecidableEq κ] : List (κ × α) → κ → Option α
  | [], _ => none
  | (k, v) :: t, key => if k = key then some v else alookup t key

/-- Association-list store, embedding Python dict assignment `d[k] = v`:
an existing key keeps its position, a new key is appended. -/
def aset {κ α : Type} [DecidableEq κ] : List (κ × α) → κ → α → List (κ × α)
  | [], k, v => [(k, v)]
  | (k0, v0) :: t, k, v => if k0 = k then (k, v) :: t else (k0, v0) :: aset t k v

/-- Embedding of a `defaultdict` read `d[k]` on the `job_info` dict:
returns the stored record, or inserts and returns the default record when
the key is absent (orwell-cli.py line 462 relies on this side effect). -/
def ddGetJob (ji : List (String × JobRec)) (jid : String) :
    JobRec × List (String × JobRec) :=
  match alookup ji jid with
  | some jr => (jr, ji)
  | none => (defaultJobRec, ji ++ [(jid, defaultJobRec)])

/-- The filter set built by `get_filters` (orwell-cli.py lines 110-118):
each of the seven dimensions is either absent (`none`, the key is not in
the dict) or carries its list of values. -/
structure Filters where
  partition : Option (List String)
  feature : Option (List String)
  gpu_type : Option (List String)
  job_id : Option (List String)
  job_partition : Option (List String)
  user : Option (List String)
  account : Option (List String)
deriving DecidableEq

/-- The filter set with no active constraint (an empty filters dict). -/
def emptyFilters : Filters := ⟨none, none, none, none, none, none, none⟩

/-- Embedding of `len(filters)`: the number of dimensions present in the
filters dict. -/
def numFilters (F : Filters) : ℕ :=
  (if F.partition.isSome then 1 else 0) + (if F.feature.isSome then 1 else 0) +
  (if F.gpu_type.isSome then 1 else 0) + (if F.job_id.isSome then 1 else 0) +
  (if F.job_partition.isSome then 1 else 0) + (if F.user.isSome then 1 else 0) +
  (if F.account.isSome then 1 else 0)

/-- Embedding of the first loop of `filter_node` (orwell-cli.py lines
451-454): one membership boolean per listed value for each of the three
direct dimensions, in source order. -/
def directChecks (F : Filters) (node : NodeRec) : List Bool :=
  (match F.partition with
   | none => []
   | some fs => fs.map fun f => decide (f ∈ node.partition)) ++
  (match F.feature with
   | none => []
   | some fs => fs.map fun f => decide (f ∈ node.feature)) ++
  (match F.gpu_type with
   | none => []
   | some fs => fs.map fun f => decide (f ∈ node.gpu_type))

/-- One iteration of the `for filt in filters[job_filter]` loop of
`filter_node` (orwell-cli.py line 462): appends the substring-test boolean
for one listed value, performing the `defaultdict` access on `job_info`. -/
def jobAttrStep (attr : JobRec → String) (jid : String)
    (st : List Bool × List (String × JobRec)) (filt : String) :
    List Bool × List (String × JobRec) :=
  let p := ddGetJob st.2 jid
  (st.1 ++ [strIn filt (attr p.1)], p.2)

/-- Embedding of the inner loop of `filter_node` for one job-scoped
dimension (orwell-cli.py lines 459-462): appends one substring-test boolean
per listed value, threading the `defaultdict` side effect on `job_info`. -/
def jobAttrChecks (filts : Option (List String)) (attr : JobRec → String)
    (jid : String) (acc : List Bool) (ji : List (String × JobRec)) :
    List Bool × List (String × JobRec) :=
  match filts with
  | none => (acc, ji)
  | some fs => fs.foldl (jobAttrStep attr jid) (acc, ji)

/-- One iteration of the `for job_id in filters['job_id']` loop of
`filter_node` (orwell-cli.py lines 456-462): the membership boolean, then
the `job_partition`, `user` and `account` checks in source order. -/
def jobIdStep (F : Filters) (st : List Bool × List (String × JobRec))
    (jid : String) : List Bool × List (String × JobRec) :=
  let memb := (alookup st.2 jid).isSome
  let st1 := jobAttrChecks F.job_partition (fun j => j.job_partition) jid
    (st.1 ++ [memb]) st.2
  let st2 := jobAttrChecks F.user (fun j => j.user) jid st1.1 st1.2
  jobAttrChecks F.account (fun j => j.account) jid st2.1 st2.2

/-- Embedding of `filter_node` (orwell-cli.py lines 449-469).  Returns the
highlight decision together with the (possibly mutated) node record: the
`defaultdict` accesses on `job_info` can insert default entries. -/
def filter_node (node : NodeRec) (F : Filters) : Bool × NodeRec :=
  let direct := directChecks F node
  match F.job_id with
  | some jids =>
      let res := jids.foldl (jobIdStep F) (([] : List Bool), node.job_info)
      (_filter (direct ++ res.1), { node with job_info := res.2 })
  | none =>
      let jb :=
        (match F.job_partition with
         | none => []
         | some fs => fs.map fun f =>
             node.job_info.any fun kv => strIn f kv.2.job_partition) ++
        (match F.user with
         | none => []
         | some fs => fs.map fun f =>
             node.job_info.any fun kv => strIn f kv.2.user) ++
        (match F.account with
         | none => []
         | some fs => fs.map fun f =>
             node.job_info.any fun kv => strIn f kv.2.account)
      (_filter (direct ++ jb), node)

/-- True when at least one job-scoped attribute dimension
(`job_partition`, `user`, `account`) carries a non-empty value list; this is
exactly the condition under which `filter_node` performs a `defaultdict`
access on `job_info` inside the `job_id` branch. -/
def hasJobAttrFilts (F : Filters) : Bool :=
  (match F.job_partition with | some (_ :: _) => true | _ => false) ||
  (match F.user with | some (_ :: _) => true | _ => false) ||
  (match F.account with | some (_ :: _) => true | _ => false)

/-- Effective job record consulted by a job-scoped check for `jid`: the
stored record when present, the blank default otherwise. -/
def jrEff (ji : List (String × JobRec)) (jid : String) : JobRec :=
  (alookup ji jid).getD defaultJobRec

/-- Specification-side booleans contributed by one `job_id` iteration of
`filter_node`, computed against a fixed `job_info` map `ji`. -/
def specBlockJi (F : Filters) (ji : List (String × JobRec)) (jid : String) :
    List Bool :=
  [(alookup ji jid).isSome] ++
  (F.job_partition.getD []).map (fun f => strIn f (jrEff ji jid).job_partition) ++
  (F.user.getD []).map (fun f => strIn f (jrEff ji jid).user) ++
  (F.account.getD []).map (fun f => strIn f (jrEff ji jid).account)

/-- Specification-side list of the per-constraint booleans of
`filter_node`, computed compositionally against the unmodified node
(no `defaultdict` state threading). -/
def checksSpec (node : NodeRec) (F : Filters) : List Bool :=
  directChecks F node ++
  match F.job_id with
  | some jids => jids.flatMap (specBlockJi F node.job_info)
  | none =>
      (match F.job_partition with
       | none => []
       | some fs => fs.map fun f =>
           node.job_info.any fun kv => strIn f kv.2.job_partition) ++
      (match F.user with
       | none => []
       | some fs => fs.map fun f =>
           node.job_info.any fun kv => strIn f kv.2.user) ++
      (match F.account with
       | none => []
       | some fs => fs.map fun f =>
           node.job_info.any fun kv => strIn f kv.2.account)

/-- True when an optional value list is present and non-empty. -/
def dimNonempty : Option (List String) → Bool
  | some (_ :: _) => true
  | _ => false

/-- The `job_info` entries inserted by the `defaultdict` side effect:
one default entry when `b` is true, nothing otherwise. -/
def condIns (b : Bool) (jid : String) : List (String × JobRec) :=
  if b then [(jid, defaultJobRec)] else []

/- Hostlist expansion (orwell-cli.py lines 265-291). -/

/-- Bracket-depth contribution of one character, embedding
`int(c == '[') + -1 * int(c == ']')` (orwell-cli.py line 276). -/
def bracketDelta (c : Char) : Int :=
  (if c = '[' then 1 else 0) - (if c = ']' then 1 else 0)

/-- Embedding of Python `str.split(sep)` on character lists: `k` separator
occurrences yield `k + 1` (possibly empty) pieces. -/
def splitOnChar (sep : Char) : List Char → List (List Char)
  | [] => [[]]
  | c :: rest =>
      if c = sep then [] :: splitOnChar sep rest
      else
        match splitOnChar sep rest with
        | s :: ss => (c :: s) :: ss
        | [] => [[c]]

/-- Numeric value of a digit string (most significant digit first). -/
def natVal (l : List Char) : ℕ :=
  l.foldl (fun a c => a * 10 + (c.toNat - '0'.toNat)) 0

/-- Embedding of Python `int(s)` on the digit strings appearing in
hostlist ranges: succeeds exactly on non-empty all-digit strings,
otherwise the `ValueError` is modelled by `none`. -/
def parseNatL (l : List Char) : Option ℕ :=
  if l ≠ [] ∧ l.all Char.isDigit then some (natVal l) else none

/-- Embedding of Python `str(i).zfill(w)`: the decimal rendering of `i`
left-padded with zeros to width `w`. -/
def zfill (w : ℕ) (i : ℕ) : List Char :=
  let s := (toString i).toList
  List.replicate (w - s.length) '0' ++ s

/-- Position of the first occurrence of a character, embedding Python
`str.index` (`none` models the `ValueError` on a missing character). -/
def firstIdx (ch : Char) : List Char → Option ℕ
  | [] => none
  | c :: t => if c = ch then some 0 else (firstIdx ch t).map (fun i => i + 1)

/-- Embedding of `_expand_part` (orwell-cli.py lines 280-291).  A segment
without `[` is yielded unchanged; otherwise the text between the first `[`
and the first `]` is split on commas, dash-free sub-items yield
`prefix + subitem`, and `lo-hi` sub-items yield the zero-padded range.
A missing `]` (Python `p.index(']')` raising `ValueError`) and a
non-numeric range bound (`int` raising `ValueError`) are modelled by
`none`. -/
def _expand_part (p : List Char) : Option (List (List Char)) :=
  if '[' ∈ p then
    match firstIdx ']' p with
    | none => none
    | some r_end =>
        let r_beg := (firstIdx '[' p).getD 0
        let pre := p.take r_beg
        let body := (p.take r_end).drop (r_beg + 1)
        ((splitOnChar ',' body).mapM fun sub_r =>
          if '-' ∈ sub_r then
            match parseNatL (sub_r.takeWhile (fun c => c ≠ '-')),
                  parseNatL ((sub_r.dropWhile (fun c => c ≠ '-')).drop 1) with
            | some lo, some hi =>
                some ((List.range' lo (hi + 1 - lo)).map fun i =>
                  pre ++ zfill (sub_r.takeWhile (fun c => c ≠ '-')).length i)
            | _, _ => none
          else some [pre ++ sub_r]).map List.flatten
  else some [p]

/-- Embedding of `_expand_hostlist` chained through `expand_node_list`
(orwell-cli.py lines 265-277): scan the input tracking bracket depth
(`d`), emit the accumulated segment (`seg`, reversed) at every comma seen
at depth zero, expand each segment with `_expand_part` and concatenate the
results. -/
def expandScan : List Char → Int → List Char → Option (List (List Char))
  | [], _, seg => _expand_part seg.reverse
  | c :: rest, d, seg =>
      if d = 0 ∧ c = ',' then
        match _expand_part seg.reverse with
        | none => none
        | some a =>
            match expandScan rest (d + bracketDelta c) [] with
            | none => none
            | some b => some (a ++ b)
      else expandScan rest (d + bracketDelta c) (c :: seg)

/-- Embedding of `expand_node_list` (orwell-cli.py lines 265-266) at the
`String` level. -/
def expand_node_list (node_list : String) : Option (List String) :=
  (expandScan node_list.toList 0 []).map (List.map String.mk)

/-- The top-level comma split performed by the `_expand_hostlist` scan:
same depth bookkeeping, but yielding the raw segments. -/
def splitTopGo : List Char → Int → List Char → List (List Char)
  | [], _, seg => [seg.reverse]
  | c :: rest, d, seg =>
      if d = 0 ∧ c = ',' then seg.reverse :: splitTopGo rest (d + bracketDelta c) []
      else splitTopGo rest (d + bracketDelta c) (c :: seg)

/-- The top-level segments of a hostlist string. -/
def topSegments (l : List Char) : List (List Char) :=
  splitTopGo l 0 []

/-- True when the scan starting at depth `d` meets a comma at depth zero. -/
def hasTopComma : List Char → Int → Bool
  | [], _ => false
  | c :: rest, d => decide (d = 0 ∧ c = ',') || hasTopComma rest (d + bracketDelta c)

/-- Bracket-depth accumulated over a string, starting from depth `d`. -/
def deltaFrom (d : Int) (l : List Char) : Int :=
  l.foldl (fun d2 c => d2 + bracketDelta c) d

/-- Total bracket-depth change across a string. -/
def deltaSum (l : List Char) : Int :=
  deltaFrom 0 l

/-- Specification-side predicate: the brackets of `l` are balanced (the
running depth never goes negative and ends at zero). -/
def balancedGo : Int → List Char → Bool
  | d, [] => d = 0
  | d, c :: rest =>
      let d2 := d + bracketDelta c
      if d2 < 0 then false else balancedGo d2 rest

/-- A string has balanced brackets when every `]` closes an earlier `[`
and every `[` is eventually closed. -/
def balancedBrackets (l : List Char) : Bool :=
  balancedGo 0 l

/-- Specification-side expansion of one bracket sub-item, following the
claim: a dash-free sub-item yields `pre + subitem`; a `lo-hi` sub-item
yields `pre + str(i)` zero-padded to the width of the `lo` literal for `i`
from `lo` to `hi` inclusive, in increasing order. -/
def specItemYield (pre : List Char) (it : List Char) : List (List Char) :=
  if '-' ∈ it then
    let loL := it.takeWhile (fun c => c ≠ '-')
    let hiL := (it.dropWhile (fun c => c ≠ '-')).drop 1
    (List.range' (natVal loL) (natVal hiL + 1 - natVal loL)).map fun i =>
      pre ++ zfill loL.length i
  else [pre ++ it]

/-- Specification-side well-formedness of one bracket sub-item: either
dash-free, or a `lo-hi` pair of non-empty digit literals. -/
def specItemWF (it : List Char) : Bool :=
  if '-' ∈ it then
    (parseNatL (it.takeWhile (fun c => c ≠ '-'))).isSome &&
    (parseNatL ((it.dropWhile (fun c => c ≠ '-')).drop 1)).isSome
  else true

/- Usage classification (orwell-cli.py lines 175-245). -/

/-- One step of the `bisect_left` binary-search loop from the Python
standard library, with explicit fuel bounding the iteration count (each
iteration shrinks `hi - lo` by at least one, so `hi - lo` initial fuel
suffices).  `a.getD i 0` embeds the list indexing `a[i]`. -/
def bisectGo (a : List ℚ) (x : ℚ) : ℕ → ℕ → ℕ → ℕ
  | 0, lo, _ => lo
  | fuel + 1, lo, hi =>
      if lo < hi then
        if a.getD ((lo + hi) / 2) 0 < x then bisectGo a x fuel ((lo + hi) / 2 + 1) hi
        else bisectGo a x fuel lo ((lo + hi) / 2)
      else lo

/-- Embedding of `bisect.bisect_left(nums, my_num)` as called by
`get_closest` (orwell-cli.py line 224). -/
def bisect_left (a : List ℚ) (x : ℚ) : ℕ :=
  bisectGo a x a.length 0 a.length

/-- Embedding of `get_closest` (orwell-cli.py lines 220-234): the element
of `nums` nearest to `my_num`, preferring the smaller one on a tie, found
through `bisect_left`. -/
def get_closest (nums : List ℚ) (my_num : ℚ) : ℚ :=
  let pos := bisect_left nums my_num
  if pos = 0 then nums.getD 0 0
  else if pos = nums.length then nums.getD (nums.length - 1) 0
  else
    let before := nums.getD (pos - 1) 0
    let after := nums.getD pos 0
    if after - my_num < my_num - before then after else before

/-- The three character sets accepted by `--glyphs`
(orwell-cli.py line 23). -/
inductive CharType where
  | ascii
  | utf8
  | emoji
deriving DecidableEq

/-- The four display modes accepted by `--show`
(orwell-cli.py lines 65-68). -/
inductive ShowUsage where
  | cpu
  | ram
  | both
  | job
deriving DecidableEq

/-- The state-glyph dict built by `gen_state_glyphs`
(orwell-cli.py lines 200-217); the field `not_a_node` holds the glyph
stored under the key `'not a node'`. -/
structure StateGlyphs where
  not_a_node : String
  reserved : String
  idle : String
  down : String
deriving DecidableEq

/-- Embedding of `gen_state_glyphs` (orwell-cli.py lines 200-217). -/
def genStateGlyphs : CharType → StateGlyphs
  | .ascii => ⟨" ", "r", "O", "X"⟩
  | .utf8 => ⟨" ", "r", "▢", "▼"⟩
  | .emoji => ⟨"👻", "🎟️", "💤", "🚧"⟩

/-- Embedding of `gen_usage_glyphs` (orwell-cli.py lines 175-197): the
ordered (boundary, glyph) pairs of the usage-bucket dict. -/
def genUsageGlyphs : CharType → List (ℚ × String)
  | .ascii =>
      [(1/10, "1"), (2/10, "2"), (3/10, "3"), (4/10, "4"), (5/10, "5"),
       (6/10, "6"), (7/10, "7"), (8/10, "8"), (9/10, "9")]
  | .utf8 =>
      [(1/8, "▁"), (2/8, "▂"), (3/8, "▃"), (4/8, "▄"), (5/8, "▅"),
       (6/8, "▆"), (7/8, "▇")]
  | .emoji =>
      [(1/8, "🤨"), (2/8, "🤔"), (3/8, "😧"), (4/8, "😬"), (5/8, "😣"),
       (6/8, "🤬"), (7/8, "😤")]

/-- Embedding of `get_node_glyph` (orwell-cli.py lines 237-245). -/
def get_node_glyph (state : String) (usage : ℚ) (sg : StateGlyphs)
    (ug : List (ℚ × String)) : String :=
  if pyStartsWith state "mix" || pyStartsWith state "alloc" then
    (alookup ug (get_closest (ug.map Prod.fst) usage)).getD ""
  else if pyStartsWith state "idle" then sg.idle
  else if pyStartsWith state "reserv" then sg.reserved
  else sg.down

/- Node-name parsing (orwell-cli.py lines 294-305). -/

/-- Embedding of `split_node_name` (orwell-cli.py lines 294-305) and the
anchored pattern `(\D+)(\d+)n?(\d*)`: a non-empty non-digit prefix, a
non-empty digit group, an optional literal `n` followed by a digit group.
When the final digit group is empty the chassis is the prefix and the
index the first digit group (`gpu02`); otherwise the chassis is
prefix + first digits and the index the final digits (`c13n05`).  A name
the pattern rejects (fatal `AttributeError` on `None.groups()`) is
modelled by `none`. -/
def split_node_name (node_name : String) : Option (String × ℕ) :=
  let l := node_name.toList
  let pre := l.takeWhile (fun c => ¬ c.isDigit)
  let rest := l.dropWhile (fun c => ¬ c.isDigit)
  let d1 := rest.takeWhile Char.isDigit
  let rest2 := rest.dropWhile Char.isDigit
  if pre = [] ∨ d1 = [] then none
  else
    let d2 := match rest2 with
      | 'n' :: r2 => r2.takeWhile Char.isDigit
      | _ => []
    if d2 = [] then some (String.mk pre, natVal d1)
    else some (String.mk (pre ++ d1), natVal d2)

/- Registry ingestion (orwell-cli.py lines 351-438). -/

/-- Embedding of Python `float(s)` on the numeric literals produced by the
slurm reports: an optional fractional part; anything else is a
`ValueError`, modelled by `none`. -/
def parseFloatQ (s : String) : Option ℚ :=
  let l := s.toList
  if '.' ∈ l then
    let ip := l.takeWhile (fun c => c ≠ '.')
    let fp := (l.dropWhile (fun c => c ≠ '.')).drop 1
    if ip.all Char.isDigit ∧ fp.all Char.isDigit ∧ '.' ∉ fp ∧ (ip ≠ [] ∨ fp ≠ []) then
      some ((natVal ip : ℚ) + (natVal fp : ℚ) / ((10 : ℚ) ^ fp.length))
    else none
  else if l ≠ [] ∧ l.all Char.isDigit then some (natVal l) else none

/-- Embedding of `get_cpu_usage` (orwell-cli.py lines 382-384): parse the
`allocated/idle/other/total` quad and return `allocated / total`; a
malformed quad (`ValueError`) or a zero total (`ZeroDivisionError`) is
modelled by `none`. -/
def get_cpu_usage (aiot : String) : Option ℚ :=
  match (splitOnChar '/' aiot.toList).map (fun p => parseFloatQ (String.mk p)) with
  | [some in_use, some _, some _, some cores] =>
      if cores = 0 then none else some (in_use / cores)
  | _ => none

/-- Embedding of `get_mem_usage` (orwell-cli.py lines 375-379):
`(total - free) / total`, or `0` when free memory is reported `N/A`. -/
def get_mem_usage (free_mem total_mem : String) : Option ℚ :=
  if free_mem = "N/A" then some 0
  else
    match parseFloatQ free_mem, parseFloatQ total_mem with
    | some f, some t => if t = 0 then none else some ((t - f) / t)
    | _, _ => none

/-- One data row of the node-state stream (`sinfo --format=%all`), as the
dict `dict(zip(header, re.split(slurm_delim, line)))` restricted to the
fields `add_node_info` reads; the schema is the fixed contract supplied by
the external reporting command.  `CPUS_AIOT` holds the `CPUS(A/I/O/T)`
column. -/
structure SinfoRec where
  HOSTNAMES : String
  STATE : String
  CPUS_AIOT : String
  FREE_MEM : String
  MEMORY : String
  PARTITION : String
  AVAIL_FEATURES : String
deriving DecidableEq

/-- One data row of the job-accounting stream (`sacct -XaPsR`), as the
dict of the fields `add_job_info` reads. -/
structure SacctRec where
  JobID : String
  JobName : String
  User : String
  Account : String
  NodeList : String
  Partition : String
deriving DecidableEq

/-- The registry state built by `get_cluster_info` (orwell-cli.py lines
425-438): the lazily-defaulted `node_info` dict is modelled as a total
function (reads of absent keys see the default record), and the
`chassis_layout` defaultdict as an insertion-ordered association list
(its key set drives the later rendering). -/
structure Registry where
  node_info : String → NodeRec
  layout : List (String × ℕ)

/-- The default node record of the `node_info` defaultdict
(orwell-cli.py lines 427-433). -/
def defaultNodeRec (ct : CharType) : NodeRec :=
  ⟨(genStateGlyphs ct).not_a_node, ∅, ∅, ∅, []⟩

/-- Pointwise update of a function-modelled dict at one key. -/
def updFun (f : String → NodeRec) (k : String) (g : NodeRec → NodeRec) :
    String → NodeRec :=
  fun k2 => if k2 = k then g (f k2) else f k2

/-- Embedding of a `defaultdict(lambda: 1)` read on `chassis_layout`
(orwell-cli.py line 409): reading an absent chassis inserts the default
`1`. -/
def ddGetNat (lay : List (String × ℕ)) (k : String) :
    ℕ × List (String × ℕ) :=
  match alookup lay k with
  | some v => (v, lay)
  | none => (1, lay ++ [(k, 1)])

/-- Feature set contributed by one node-state row: every comma-separated
entry of `AVAIL_FEATURES` (orwell-cli.py line 412). -/
def featSet (s : String) : Finset String :=
  (s.splitOn ",").toFinset

/-- The parsing performed by one `add_node_info` line (orwell-cli.py lines
393-396): host name split, CPU quad, memory fields; any failure is an
uncaught exception aborting the run, modelled by `none`. -/
def nodeLineParse (r : SinfoRec) : Option ((String × ℕ) × ℚ × ℚ) := do
  let cn ← split_node_name r.HOSTNAMES
  let cpu ← get_cpu_usage r.CPUS_AIOT
  let mem ← get_mem_usage r.FREE_MEM r.MEMORY
  pure (cn, cpu, mem)

/-- The per-node-record transformation of one `add_node_info` line: set
the glyph according to the display mode (lines 397-407), then union the
partition and the features into the node's sets (lines 411-412). -/
def nodeRecUpd (ct : CharType) (mode : ShowUsage) (r : SinfoRec) (cpu mem : ℚ)
    (rec : NodeRec) : NodeRec :=
  let sg := genStateGlyphs ct
  let ug := genUsageGlyphs ct
  let glyphUpd : NodeRec → NodeRec := fun rec2 =>
    match mode with
    | .cpu => { rec2 with glyph := get_node_glyph r.STATE cpu sg ug }
    | .ram => { rec2 with glyph := get_node_glyph r.STATE mem sg ug }
    | .both =>
        let g2 := get_node_glyph r.STATE cpu sg ug ++ get_node_glyph r.STATE mem sg ug
        { rec2 with glyph := g2 }
    | .job => rec2
  let setsUpd : NodeRec → NodeRec := fun rec2 =>
    { rec2 with partition := insert r.PARTITION rec2.partition,
                feature := rec2.feature ∪ featSet r.AVAIL_FEATURES }
  setsUpd (glyphUpd rec)

/-- The registry transformation of one successfully parsed `add_node_info`
line: update the node record under its host name and grow the chassis
layout (orwell-cli.py lines 397-412). -/
def nodeLineApply (ct : CharType) (mode : ShowUsage) (r : SinfoRec)
    (cn : String × ℕ) (cpu mem : ℚ) (st : Registry) : Registry :=
  let p := ddGetNat st.layout cn.1
  let lay2 := if p.1 < cn.2 then aset p.2 cn.1 cn.2 else p.2
  { node_info := updFun st.node_info r.HOSTNAMES (nodeRecUpd ct mode r cpu mem),
    layout := lay2 }

/-- The per-line registry transformation of `add_node_info`
(orwell-cli.py lines 387-412): parse, then apply. -/
def nodeLineUpd (ct : CharType) (mode : ShowUsage) (r : SinfoRec) :
    Option (Registry → Registry) :=
  (nodeLineParse r).map (fun x => nodeLineApply ct mode r x.1 x.2.1 x.2.2)

/-- Embedding of `add_node_info` (orwell-cli.py lines 387-412) over the
data rows of the node-state stream. -/
def add_node_info (ct : CharType) (mode : ShowUsage) :
    List SinfoRec → Registry → Option Registry
  | [], st => some st
  | r :: rs, st =>
      match nodeLineUpd ct mode r with
      | none => none
      | some u => add_node_info ct mode rs (u st)

/-- The job ids a job record is stored under (orwell-cli.py lines
359-363): the job id itself and, for an array job containing `_`, also the
base id before the first `_`. -/
def jobIdsOf (job_id : String) : List String :=
  if '_' ∈ job_id.toList then
    [job_id, String.mk (job_id.toList.takeWhile (fun c => c ≠ '_'))]
  else [job_id]

/-- The job record stored for one accounting row
(orwell-cli.py lines 365-368). -/
def jobRecOf (r : SacctRec) : JobRec :=
  ⟨r.JobName, r.User, r.Account, r.Partition⟩

/-- The `job_info` update of one accounting row on one node record
(orwell-cli.py lines 364-368): the row's record is stored under every
applicable job id. -/
def jobInfoUpd (r : SacctRec) (rec : NodeRec) : NodeRec :=
  { rec with job_info :=
      (jobIdsOf r.JobID).foldl (fun ji jid => aset ji jid (jobRecOf r)) rec.job_info }

/-- The per-expanded-node update of `add_job_info` (orwell-cli.py lines
358-372): store the job record under each applicable job id and, in
job-identity display mode, assign the job's glyph (consuming the cyclic
glyph iterator `gs` on first sight of the job id, tracked by the
`job_map` association list and counter). -/
def jobNodeUpd (mode : ShowUsage) (gs : ℕ → String) (r : SacctRec)
    (jmc : List (String × String) × ℕ) (node : String) :
    (Registry → Registry) × (List (String × String) × ℕ) :=
  match mode with
  | .job =>
      let q : String × List (String × String) × ℕ :=
        match alookup jmc.1 r.JobID with
        | some g0 => (g0, jmc.1, jmc.2)
        | none => (gs jmc.2, aset jmc.1 r.JobID (gs jmc.2), jmc.2 + 1)
      (fun st =>
        let ni := updFun st.node_info node (fun rec => { jobInfoUpd r rec with glyph := q.1 })
        { st with node_info := ni },
       (q.2.1, q.2.2))
  | _ =>
      (fun st => { st with node_info := updFun st.node_info node (jobInfoUpd r) }, jmc)

/-- One step of the `for node in expand_node_list(...)` loop of
`add_job_info`, threading the registry and the job-glyph state. -/
def jobFoldStep (mode : ShowUsage) (gs : ℕ → String) (r : SacctRec)
    (acc : Registry × (List (String × String) × ℕ)) (node : String) :
    Registry × (List (String × String) × ℕ) :=
  let q := jobNodeUpd mode gs r acc.2 node
  (q.1 acc.1, q.2)

/-- Embedding of `add_job_info` (orwell-cli.py lines 351-372) over the
data rows of the accounting stream, threading the job-glyph map and
iterator position; a node-list that fails to expand aborts the run
(`none`). -/
def addJobAux (mode : ShowUsage) (gs : ℕ → String) :
    List SacctRec → List (String × String) × ℕ → Registry → Option Registry
  | [], _, st => some st
  | r :: rs, jmc, st =>
      match expand_node_list r.NodeList with
      | none => none
      | some nodes =>
          let p := nodes.foldl (jobFoldStep mode gs r) (st, jmc)
          addJobAux mode gs rs p.2 p.1

/-- Embedding of `add_job_info` with its local `job_map = {}` and a fresh
glyph iterator (orwell-cli.py lines 351-352 and 501). -/
def add_job_info (mode : ShowUsage) (gs : ℕ → String)
    (lines : List SacctRec) (st : Registry) : Option Registry :=
  addJobAux mode gs lines ([], 0) st

/- Layout rendering (orwell-cli.py lines 472-495). -/

/-- Embedding of `'{:02d}'.format(n)`: the decimal rendering of `n`,
zero-padded on the left to at least two characters. -/
def pad2 (n : ℕ) : String :=
  let s := toString n
  if s.length < 2 then "0" ++ s else s

/-- The node name looked up for index `n` of a chassis by
`print_node_layout` (orwell-cli.py lines 482-485): chassis ids starting
with `c` get an `n` infix before the two-digit-padded index, all others
get the padded index appended directly. -/
def lookupName (chas : String) (n : ℕ) : String :=
  if pyStartsWith chas "c" then chas ++ "n" ++ pad2 n else chas ++ pad2 n

/-- Embedding of `highlight_node` (orwell-cli.py lines 472-473). -/
def highlight_node (text : String) (color : String) : String :=
  "\x1b[" ++ color ++ "m" ++ text ++ "\x1b[0m"

/-- Embedding of the inner loop of `print_node_layout` (orwell-cli.py
lines 481-494) over a list of node indices: look each node up under its
formatted name, double the absent glyph in dual-metric mode (a mutation of
`node_info`), evaluate the filter when at least one filter dimension is
present (whose `defaultdict` side effects also mutate `node_info`), and
emit the glyph, wrapped in the highlight escape when the filter holds. -/
def renderRowGo (F : Filters) (ct : CharType) (mode : ShowUsage)
    (color : String) (chas : String) :
    List ℕ → (String → NodeRec) → List String × (String → NodeRec)
  | [], info => ([], info)
  | n :: ns, info =>
      let node := lookupName chas n
      let sg := genStateGlyphs ct
      let info1 :=
        if mode = .both ∧ (info node).glyph = sg.not_a_node then
          updFun info node (fun rec => { rec with glyph := rec.glyph ++ sg.not_a_node })
        else info
      let hr :=
        if 0 < numFilters F then filter_node (info1 node) F else (false, info1 node)
      let info2 := updFun info1 node (fun _ => hr.2)
      let cell := if hr.1 then highlight_node hr.2.glyph color else hr.2.glyph
      let rest := renderRowGo F ct mode color chas ns info2
      (cell :: rest.1, rest.2)

/-- One rendered chassis row: the glyph cells for indices `1` through
`cnt` (orwell-cli.py line 481: `range(1, chassis[chas] + 1)`), together
with the node registry as mutated by rendering. -/
def renderRow (info : String → NodeRec) (F : Filters) (ct : CharType)
    (mode : ShowUsage) (color : String) (chas : String) (cnt : ℕ) :
    List String × (String → NodeRec) :=
  renderRowGo F ct mode color chas (List.range' 1 cnt) info

/-- Specification-side row rendering with the highlight machinery removed:
the same lookup, doubling and glyph emission, but no filter evaluation and
no escape wrapping. -/
def plainRowGo (ct : CharType) (mode : ShowUsage) (chas : String) :
    List ℕ → (String → NodeRec) → List String × (String → NodeRec)
  | [], info => ([], info)
  | n :: ns, info =>
      let node := lookupName chas n
      let sg := genStateGlyphs ct
      let info1 :=
        if mode = .both ∧ (info node).glyph = sg.not_a_node then
          updFun info node (fun rec => { rec with glyph := rec.glyph ++ sg.not_a_node })
        else info
      let rest := plainRowGo ct mode chas ns info1
      ((info1 node).glyph :: rest.1, rest.2)

/-!
Theorems.
-/

theorem alookup_append_of_none {α : Type} (a b : List (String × α)) (k : String)
    (h : alookup a k = none) : alookup (a ++ b) k = alookup b k := by
  induction a with
  | nil => rfl
  | cons hd t ih =>
      obtain ⟨k0, v0⟩ := hd
      by_cases hk : k0 = k
      · rw [show alookup ((k0, v0) :: t) k = if k0 = k then some v0 else alookup t k
          from rfl, if_pos hk] at h
        exact absurd h (by simp)
      · rw [show alookup ((k0, v0) :: t) k = if k0 = k then some v0 else alookup t k
          from rfl, if_neg hk] at h
        rw [List.cons_append,
          show alookup ((k0, v0) :: (t ++ b)) k = if k0 = k then some v0 else alookup (t ++ b) k
          from rfl, if_neg hk]
        exact ih h

theorem alookup_append_of_some {α : Type} (a b : List (String × α)) (k : String)
    (v : α) (h : alookup a k = some v) : alookup (a ++ b) k = some v := by
  induction a with
  | nil => simp [alookup] at h
  | cons hd t ih =>
      obtain ⟨k0, v0⟩ := hd
      by_cases hk : k0 = k
      · simp only [alookup, hk, if_true] at h ⊢
        exact h
      · simp only [alookup, hk, if_false] at h ⊢
        exact ih h

theorem alookup_snoc_self {α : Type} (a : List (String × α)) (k : String) (v : α)
    (h : alookup a k = none) : alookup (a ++ [(k, v)]) k = some v := by
  rw [alookup_append_of_none a _ k h]
  simp [alookup]

theorem alookup_snoc_other {α : Type} (a : List (String × α)) (j k : String) (v : α)
    (h : j ≠ k) : alookup (a ++ [(k, v)]) j = alookup a j := by
  cases hx : alookup a j with
  | some w => exact alookup_append_of_some a _ j w hx
  | none =>
      rw [alookup_append_of_none a _ j hx,
        show alookup [(k, v)] j = if k = j then some v else none from rfl,
        if_neg (fun hh => h hh.symm)]

theorem _filter_eq_true (l : List Bool) :
    _filter l = true ↔ l ≠ [] ∧ ∀ b ∈ l, b = true := by
  unfold _filter
  rcases l with _ | ⟨b, t⟩
  · simp
  · simp [List.all_eq_true]

theorem updFun_const_self (f : String → NodeRec) (k : String) :
    updFun f k (fun _ => f k) = f := by
  funext k2
  unfold updFun
  by_cases h : k2 = k
  · rw [if_pos h, h]
  · rw [if_neg h]

/-- Claim C9: for every node, regardless of its attributes, rendering with
an empty filter set (zero active constraints) never highlights the node:
the filter evaluates to `False` on every node, and row rendering under the
empty filter set coincides with the highlight-free rendering. -/
theorem C9_empty_filters_never_highlight :
    (∀ node : NodeRec, (filter_node node emptyFilters).1 = false) ∧
    (∀ (ct : CharType) (mode : ShowUsage) (color chas : String) (ns : List ℕ)
      (info : String → NodeRec),
      renderRowGo emptyFilters ct mode color chas ns info =
        plainRowGo ct mode chas ns info) := by
  constructor
  · intro node
    rfl
  · intro ct mode color chas ns
    induction ns with
    | nil => intro info; rfl
    | cons n t ih =>
        intro info
        show renderRowGo emptyFilters ct mode color chas (n :: t) info =
          plainRowGo ct mode chas (n :: t) info
        have hnum : ¬ 0 < numFilters emptyFilters := by decide
        unfold renderRowGo plainRowGo
        simp only [if_neg hnum]
        rw [updFun_const_self, ih]
        simp

theorem jobAttrFold_present (attr : JobRec → String) (jid : String) (jr : JobRec)
    (fs : List String) :
    ∀ (acc : List Bool) (ji : List (String × JobRec)), alookup ji jid = some jr →
      fs.foldl (jobAttrStep attr jid) (acc, ji) =
        (acc ++ fs.map (fun f => strIn f (attr jr)), ji) := by
  induction fs with
  | nil => intro acc ji _; simp
  | cons f t ih =>
      intro acc ji h
      rw [List.foldl_cons]
      have hstep : jobAttrStep attr jid (acc, ji) f = (acc ++ [strIn f (attr jr)], ji) := by
        simp [jobAttrStep, ddGetJob, h]
      rw [hstep, ih _ _ h]
      simp

theorem jobAttrFold_absent (attr : JobRec → String) (jid : String) (f : String)
    (t : List String) (acc : List Bool) (ji : List (String × JobRec))
    (h : alookup ji jid = none) :
    (f :: t).foldl (jobAttrStep attr jid) (acc, ji) =
      (acc ++ (f :: t).map (fun g => strIn g (attr defaultJobRec)),
       ji ++ [(jid, defaultJobRec)]) := by
  rw [List.foldl_cons]
  have hstep : jobAttrStep attr jid (acc, ji) f =
      (acc ++ [strIn f (attr defaultJobRec)], ji ++ [(jid, defaultJobRec)]) := by
    simp [jobAttrStep, ddGetJob, h]
  rw [hstep,
    jobAttrFold_present attr jid defaultJobRec t _ _ (alookup_snoc_self ji jid defaultJobRec h)]
  simp

theorem jobAttrChecks_present (filts : Option (List String)) (attr : JobRec → String)
    (jid : String) (acc : List Bool) (ji : List (String × JobRec)) (jr : JobRec)
    (h : alookup ji jid = some jr) :
    jobAttrChecks filts attr jid acc ji =
      (acc ++ (filts.getD []).map (fun f => strIn f (attr jr)), ji) := by
  cases filts with
  | none => simp [jobAttrChecks]
  | some fs => simpa [jobAttrChecks] using jobAttrFold_present attr jid jr fs acc ji h

theorem jobAttrChecks_absent (filts : Option (List String)) (attr : JobRec → String)
    (jid : String) (acc : List Bool) (ji : List (String × JobRec)) (b : Bool)
    (h : alookup ji jid = none) :
    jobAttrChecks filts attr jid acc (ji ++ condIns b jid) =
      (acc ++ (filts.getD []).map (fun f => strIn f (attr defaultJobRec)),
       ji ++ condIns (b || dimNonempty filts) jid) := by
  cases b with
  | false =>
      simp only [condIns, Bool.false_eq_true, if_false, List.append_nil, Bool.false_or]
      cases filts with
      | none => simp [jobAttrChecks, dimNonempty, condIns]
      | some fs =>
          cases fs with
          | nil => simp [jobAttrChecks, dimNonempty, condIns]
          | cons f t =>
              simpa [jobAttrChecks, dimNonempty, condIns] using
                jobAttrFold_absent attr jid f t acc ji h
  | true =>
      simp only [condIns, if_true, Bool.true_or]
      exact jobAttrChecks_present filts attr jid acc (ji ++ [(jid, defaultJobRec)])
        defaultJobRec (alookup_snoc_self ji jid defaultJobRec h)

theorem hasJobAttrFilts_eq (F : Filters) :
    hasJobAttrFilts F =
      (dimNonempty F.job_partition || dimNonempty F.user || dimNonempty F.account) := rfl

theorem jobIdStep_eq (F : Filters) (acc : List Bool) (ji : List (String × JobRec))
    (jid : String) :
    jobIdStep F (acc, ji) jid =
      (acc ++ specBlockJi F ji jid,
       ji ++ condIns (!(alookup ji jid).isSome && hasJobAttrFilts F) jid) := by
  cases hx : alookup ji jid with
  | some jr =>
      unfold jobIdStep
      dsimp only
      rw [jobAttrChecks_present F.job_partition _ jid _ ji jr hx]
      rw [jobAttrChecks_present F.user _ jid _ ji jr hx]
      rw [jobAttrChecks_present F.account _ jid _ ji jr hx]
      simp [specBlockJi, jrEff, hx, condIns]
  | none =>
      unfold jobIdStep
      dsimp only
      have e1 : jobAttrChecks F.job_partition (fun j => j.job_partition) jid
          (acc ++ [(alookup ji jid).isSome]) ji =
          (acc ++ [(alookup ji jid).isSome] ++
            (F.job_partition.getD []).map (fun f => strIn f defaultJobRec.job_partition),
           ji ++ condIns (dimNonempty F.job_partition) jid) := by
        have h0 := jobAttrChecks_absent F.job_partition (fun j => j.job_partition) jid
          (acc ++ [(alookup ji jid).isSome]) ji false hx
        rwa [show ji ++ condIns false jid = ji by simp [condIns], Bool.false_or] at h0
      rw [e1]
      dsimp only
      rw [jobAttrChecks_absent F.user (fun j => j.user) jid _ ji
        (dimNonempty F.job_partition) hx]
      dsimp only
      rw [jobAttrChecks_absent F.account (fun j => j.account) jid _ ji
        (dimNonempty F.job_partition || dimNonempty F.user) hx]
      rw [hasJobAttrFilts_eq]
      simp [specBlockJi, jrEff, hx, condIns, Bool.or_assoc]

theorem specBlockJi_congr (F : Filters) (ji ji2 : List (String × JobRec)) (jid : String)
    (h : alookup ji jid = alookup ji2 jid) :
    specBlockJi F ji jid = specBlockJi F ji2 jid := by
  simp [specBlockJi, jrEff, h]

theorem specBlockJi_length (F : Filters) (ji ji2 : List (String × JobRec))
    (jid jid2 : String) :
    (specBlockJi F ji jid).length = (specBlockJi F ji2 jid2).length := by
  simp [specBlockJi]

theorem false_mem_specBlockJi (F : Filters) (ji : List (String × JobRec)) (jid : String)
    (h : alookup ji jid = none) : false ∈ specBlockJi F ji jid := by
  simp [specBlockJi, h]

theorem alookup_append_condIns_of_some {b : Bool} (ji : List (String × JobRec))
    (j j0 : String) (v : JobRec) (h : alookup ji j = some v) :
    alookup (ji ++ condIns b j0) j = some v :=
  alookup_append_of_some ji _ j v h

theorem alookup_append_condIns_other {b : Bool} (ji : List (String × JobRec))
    (j j0 : String) (hne : j ≠ j0) :
    alookup (ji ++ condIns b j0) j = alookup ji j := by
  cases b with
  | false => simp [condIns]
  | true => exact alookup_snoc_other ji j j0 defaultJobRec hne

theorem foldJi_facts (F : Filters) (jids : List String) :
    ∀ (acc : List Bool) (ji : List (String × JobRec)),
      (∀ j v, alookup ji j = some v →
        alookup (jids.foldl (jobIdStep F) (acc, ji)).2 j = some v) ∧
      (∀ j, alookup ji j = none →
        alookup (jids.foldl (jobIdStep F) (acc, ji)).2 j = none ∨
        (alookup (jids.foldl (jobIdStep F) (acc, ji)).2 j = some defaultJobRec ∧
          j ∈ jids ∧ hasJobAttrFilts F = true)) ∧
      (hasJobAttrFilts F = false → (jids.foldl (jobIdStep F) (acc, ji)).2 = ji) := by
  induction jids with
  | nil => intro acc ji; refine ⟨fun j v h => h, fun j h => Or.inl h, fun _ => rfl⟩
  | cons j0 rest ih =>
      intro acc ji
      rw [List.foldl_cons, jobIdStep_eq]
      obtain ⟨ih1, ih2, ih3⟩ := ih (acc ++ specBlockJi F ji j0) (ji ++ condIns (!(alookup ji j0).isSome && hasJobAttrFilts F) j0)
      refine ⟨?_, ?_, ?_⟩
      · intro j v h
        exact ih1 j v (alookup_append_condIns_of_some ji j j0 v h)
      · intro j h
        by_cases hj : j = j0
        · subst hj
          by_cases hA : hasJobAttrFilts F = true
          · have hb : (!(alookup ji j).isSome && hasJobAttrFilts F) = true := by
              rw [h, hA]; rfl
            have hji : alookup (ji ++ condIns (!(alookup ji j).isSome && hasJobAttrFilts F) j) j = some defaultJobRec := by
              rw [hb]; simpa [condIns] using alookup_snoc_self ji j defaultJobRec h
            exact Or.inr ⟨ih1 j defaultJobRec hji, List.mem_cons_self _ _, hA⟩
          · have hb : (!(alookup ji j).isSome && hasJobAttrFilts F) = false := by
              have hf : hasJobAttrFilts F = false := by
                cases hF : hasJobAttrFilts F
                · rfl
                · exact absurd hF hA
              rw [hf, Bool.and_false]
            have hji : alookup (ji ++ condIns (!(alookup ji j).isSome && hasJobAttrFilts F) j) j = none := by
              rw [hb]; simpa [condIns] using h
            rcases ih2 j hji with h1 | ⟨h1, h2, h3⟩
            · exact Or.inl h1
            · exact Or.inr ⟨h1, List.mem_cons_of_mem _ h2, h3⟩
        · have hji : alookup (ji ++ condIns (!(alookup ji j0).isSome && hasJobAttrFilts F) j0) j = none := by
            rw [alookup_append_condIns_other ji j j0 hj]; exact h
          rcases ih2 j hji with h1 | ⟨h1, h2, h3⟩
          · exact Or.inl h1
          · exact Or.inr ⟨h1, List.mem_cons_of_mem _ h2, h3⟩
      · intro hA
        have : (!(alookup ji j0).isSome && hasJobAttrFilts F) = false := by
          rw [hA, Bool.and_false]
        rw [this] at ih3 ⊢
        rw [ih3 hA]
        simp [condIns]

theorem all_mem_true_iff (l : List Bool) : (∀ b ∈ l, b = true) ↔ false ∉ l := by
  constructor
  · intro h hf
    have := h false hf
    simp at this
  · intro h b hb
    cases b with
    | false => exact absurd hb h
    | true => rfl

theorem foldBools_spec (F : Filters) (orig : List (String × JobRec)) (jids : List String) :
    ∀ (acc accS : List Bool) (ji : List (String × JobRec)),
      (∀ k, alookup ji k = alookup orig k ∨
        (alookup orig k = none ∧ alookup ji k = some defaultJobRec ∧
          false ∈ acc ∧ false ∈ accS)) →
      acc.length = accS.length → (false ∈ acc ↔ false ∈ accS) →
      ((jids.foldl (jobIdStep F) (acc, ji)).1.length =
        (accS ++ jids.flatMap (specBlockJi F orig)).length ∧
       (false ∈ (jids.foldl (jobIdStep F) (acc, ji)).1 ↔
        false ∈ accS ++ jids.flatMap (specBlockJi F orig))) := by
  induction jids with
  | nil =>
      intro acc accS ji _ hlen hmem
      simpa using ⟨hlen, hmem⟩
  | cons j0 rest ih =>
      intro acc accS ji hinv hlen hmem
      rw [List.foldl_cons, jobIdStep_eq, List.flatMap_cons]
      have hblen : (specBlockJi F ji j0).length = (specBlockJi F orig j0).length :=
        specBlockJi_length F ji orig j0 j0
      have hbmem : (false ∈ acc ++ specBlockJi F ji j0 ↔
          false ∈ accS ++ specBlockJi F orig j0) := by
        rcases hinv j0 with hA | ⟨hB1, hB2, hB3, hB4⟩
        · rw [specBlockJi_congr F ji orig j0 hA]
          simp only [List.mem_append]
          exact or_congr hmem Iff.rfl
        · simp only [List.mem_append]
          constructor
          · intro _; exact Or.inl hB4
          · intro _; exact Or.inl hB3
      have hinv2 : ∀ k,
          alookup (ji ++ condIns (!(alookup ji j0).isSome && hasJobAttrFilts F) j0) k =
            alookup orig k ∨
          (alookup orig k = none ∧
            alookup (ji ++ condIns (!(alookup ji j0).isSome && hasJobAttrFilts F) j0) k =
              some defaultJobRec ∧
            false ∈ acc ++ specBlockJi F ji j0 ∧ false ∈ accS ++ specBlockJi F orig j0) := by
        intro k
        rcases hinv k with hA | ⟨hB1, hB2, hB3, hB4⟩
        · by_cases hk : k = j0
          · subst hk
            cases hb : (!(alookup ji k).isSome && hasJobAttrFilts F) with
            | false =>
                left
                simpa [condIns, hb] using hA
            | true =>
                rcases Bool.and_eq_true_iff.mp hb with ⟨hs, _⟩
                have hnone : alookup ji k = none := by
                  cases hx : alookup ji k with
                  | none => rfl
                  | some v => rw [hx] at hs; simp at hs
                right
                refine ⟨hA ▸ hnone, ?_, ?_, ?_⟩
                · simpa [condIns] using alookup_snoc_self ji k defaultJobRec hnone
                · exact List.mem_append.mpr (Or.inr (false_mem_specBlockJi F ji k hnone))
                · refine List.mem_append.mpr (Or.inr (false_mem_specBlockJi F orig k ?_))
                  rw [← hA]; exact hnone
          · left
            rw [alookup_append_condIns_other ji k j0 hk]
            exact hA
        · right
          refine ⟨hB1, alookup_append_condIns_of_some ji k j0 defaultJobRec hB2, ?_, ?_⟩
          · exact List.mem_append.mpr (Or.inl hB3)
          · exact List.mem_append.mpr (Or.inl hB4)
      have hlen2 : (acc ++ specBlockJi F ji j0).length =
          (accS ++ specBlockJi F orig j0).length := by
        simp [hlen, hblen]
      obtain ⟨r1, r2⟩ := ih (acc ++ specBlockJi F ji j0) (accS ++ specBlockJi F orig j0)
        (ji ++ condIns (!(alookup ji j0).isSome && hasJobAttrFilts F) j0) hinv2 hlen2 hbmem
      constructor
      · rw [r1]; simp
      · rw [r2]; simp

theorem filter_node_fst_some (node : NodeRec) (F : Filters) (jids : List String)
    (hJ : F.job_id = some jids) :
    (filter_node node F).1 =
      _filter (directChecks F node ++ (jids.foldl (jobIdStep F) ([], node.job_info)).1) := by
  unfold filter_node
  rw [hJ]

theorem filter_iff_of_len_mem (d l1 l2 : List Bool) (hlen : l1.length = l2.length)
    (hmem : false ∈ l1 ↔ false ∈ l2) :
    (_filter (d ++ l1) = true ↔ ((d ++ l2) ≠ [] ∧ ∀ b ∈ d ++ l2, b = true)) := by
  rw [_filter_eq_true, all_mem_true_iff, all_mem_true_iff]
  have h1 : (d ++ l1 = []) ↔ (d ++ l2 = []) := by
    rw [← List.length_eq_zero, ← List.length_eq_zero]
    simp [hlen]
  have h2 : (false ∈ d ++ l1) ↔ (false ∈ d ++ l2) := by
    simp only [List.mem_append]
    exact or_congr Iff.rfl hmem
  constructor
  · rintro ⟨a, b⟩
    exact ⟨fun hh => a (h1.mpr hh), fun hf => b (h2.mpr hf)⟩
  · rintro ⟨a, b⟩
    exact ⟨fun hh => a (h1.mp hh), fun hf => b (h2.mp hf)⟩

/-- Claim C1, amended: the per-constraint booleans are always combined by
conjunction — the node is highlighted iff the filter set contributes at
least one constraint check and every check holds.  There is no OR mode:
a node satisfying only some constraints is not highlighted, even though no
mode was selected. -/
theorem C1_filter_combination_is_and (node : NodeRec) (F : Filters) :
    (filter_node node F).1 = true ↔
      (checksSpec node F ≠ [] ∧ ∀ b ∈ checksSpec node F, b = true) := by
  cases hJ : F.job_id with
  | none =>
      have he : (filter_node node F).1 = _filter (checksSpec node F) := by
        unfold filter_node checksSpec
        rw [hJ]
      rw [he, _filter_eq_true]
  | some jids =>
      unfold filter_node checksSpec
      rw [hJ]
      dsimp only
      obtain ⟨hlen, hmem⟩ := foldBools_spec F node.job_info jids [] [] node.job_info
        (fun _ => Or.inl rfl) rfl Iff.rfl
      simp only [List.nil_append] at hlen hmem
      exact filter_iff_of_len_mem (directChecks F node) _ _ hlen hmem

/-- Claim C1, counterexample to the stated OR default: a node in partition
`day` under the filter `{partition: [day, gpu]}` satisfies one of the two
constraints, so the claimed default OR combination would highlight it; the
code combines with AND and does not. -/
theorem C1_counterexample :
    (filter_node ⟨" ", {"day"}, ∅, ∅, []⟩
      ⟨some ["day", "gpu"], none, none, none, none, none, none⟩).1 = false ∧
    decide ("day" ∈ ({"day"} : Finset String)) = true ∧
    decide ("gpu" ∈ ({"day"} : Finset String)) = false := by
  decide

/-- Witness for C1: the amended equivalence instantiated at a concrete
node and filter set. -/
theorem C1_filter_combination_is_and_witness :
    (filter_node ⟨" ", {"day"}, ∅, ∅, []⟩
      ⟨some ["day"], none, none, none, none, none, none⟩).1 = true ↔
      (checksSpec ⟨" ", {"day"}, ∅, ∅, []⟩
        ⟨some ["day"], none, none, none, none, none, none⟩ ≠ [] ∧
       ∀ b ∈ checksSpec ⟨" ", {"day"}, ∅, ∅, []⟩
        ⟨some ["day"], none, none, none, none, none, none⟩, b = true) :=
  C1_filter_combination_is_and ⟨" ", {"day"}, ∅, ∅, []⟩
    ⟨some ["day"], none, none, none, none, none, none⟩

theorem foldBools_congr (F : Filters) (jids : List String) :
    ∀ (acc : List Bool) (ji1 ji2 : List (String × JobRec)),
      (∀ j ∈ jids, alookup ji1 j = alookup ji2 j) →
      (jids.foldl (jobIdStep F) (acc, ji1)).1 = (jids.foldl (jobIdStep F) (acc, ji2)).1 := by
  induction jids with
  | nil => intro acc ji1 ji2 _; rfl
  | cons j0 rest ih =>
      intro acc ji1 ji2 hagree
      rw [List.foldl_cons, List.foldl_cons, jobIdStep_eq, jobIdStep_eq]
      have h0 : alookup ji1 j0 = alookup ji2 j0 := hagree j0 (List.mem_cons_self _ _)
      rw [specBlockJi_congr F ji1 ji2 j0 h0, h0]
      apply ih
      intro j hj
      by_cases hjj : j = j0
      · subst hjj
        cases hx : alookup ji2 j with
        | some v => simpa [condIns] using h0
        | none =>
            by_cases hA : hasJobAttrFilts F = true
            · simp only [condIns, Option.isSome_none, Bool.not_false, Bool.true_and, hA,
                if_true]
              rw [alookup_snoc_self ji1 j defaultJobRec (h0.trans hx),
                alookup_snoc_self ji2 j defaultJobRec hx]
            · have hA2 : hasJobAttrFilts F = false := by
                cases hF : hasJobAttrFilts F
                · rfl
                · exact absurd hF hA
              simpa [condIns, hA2] using h0
      · rw [alookup_append_condIns_other ji1 j j0 hjj,
          alookup_append_condIns_other ji2 j j0 hjj]
        exact hagree j (List.mem_cons_of_mem _ hj)

/-- Claim C2: when the filter includes a `job_id` constraint, the
`job_partition`/`user`/`account` constraints are evaluated only against
the jobs named by that constraint — the decision is invariant under
changing any other job recorded on the node — and in particular a node
carrying job 123 (partition `batch`) and job 456 (partition `day`) is not
highlighted by `{job_id: [123], job_partition: [day]}`. -/
theorem C2_job_id_scoped_evaluation :
    (∀ (n1 n2 : NodeRec) (F : Filters) (jids : List String),
      F.job_id = some jids →
      n1.partition = n2.partition → n1.feature = n2.feature →
      n1.gpu_type = n2.gpu_type →
      (∀ j ∈ jids, alookup n1.job_info j = alookup n2.job_info j) →
      (filter_node n1 F).1 = (filter_node n2 F).1) ∧
    (filter_node
      ⟨" ", ∅, ∅, ∅, [("123", ⟨"", "", "", "batch"⟩), ("456", ⟨"", "", "", "day"⟩)]⟩
      ⟨none, none, none, some ["123"], some ["day"], none, none⟩).1 = false := by
  constructor
  · intro n1 n2 F jids hJ hp hf hg hagree
    unfold filter_node
    rw [hJ]
    dsimp only
    have hd : directChecks F n1 = directChecks F n2 := by
      unfold directChecks
      rw [hp, hf, hg]
    rw [hd, foldBools_congr F jids [] n1.job_info n2.job_info hagree]
  · decide

/-- Witness for C2: the invariance instantiated at two concrete nodes that
agree on job 123 but carry different other jobs. -/
theorem C2_job_id_scoped_evaluation_witness :
    (filter_node
      ⟨" ", ∅, ∅, ∅, [("123", ⟨"", "", "", "batch"⟩), ("456", ⟨"", "", "", "day"⟩)]⟩
      ⟨none, none, none, some ["123"], some ["day"], none, none⟩).1 =
    (filter_node
      ⟨" ", ∅, ∅, ∅, [("123", ⟨"", "", "", "batch"⟩), ("789", ⟨"", "x", "y", "z"⟩)]⟩
      ⟨none, none, none, some ["123"], some ["day"], none, none⟩).1 :=
  C2_job_id_scoped_evaluation.1
    ⟨" ", ∅, ∅, ∅, [("123", ⟨"", "", "", "batch"⟩), ("456", ⟨"", "", "", "day"⟩)]⟩
    ⟨" ", ∅, ∅, ∅, [("123", ⟨"", "", "", "batch"⟩), ("789", ⟨"", "x", "y", "z"⟩)]⟩
    ⟨none, none, none, some ["123"], some ["day"], none, none⟩
    ["123"] rfl rfl rfl rfl (by decide)

/-- Claim C4, amended: a job-scoped constraint evaluated under a `job_id`
present on the node is satisfied iff some listed value is a contiguous
substring (Python `in`) of the job attribute — full equality is sufficient
but not necessary. -/
theorem C4_substring_matching (node : NodeRec) (jid : String) (jr : JobRec)
    (v : String) (h : alookup node.job_info jid = some jr) :
    (filter_node node ⟨none, none, none, some [jid], some [v], none, none⟩).1 =
      strIn v jr.job_partition ∧
    (filter_node node ⟨none, none, none, some [jid], none, some [v], none⟩).1 =
      strIn v jr.user ∧
    (filter_node node ⟨none, none, none, some [jid], none, none, some [v]⟩).1 =
      strIn v jr.account := by
  refine ⟨?_, ?_, ?_⟩ <;>
  · rw [filter_node_fst_some node _ [jid] rfl, List.foldl_cons, jobIdStep_eq,
      List.foldl_nil]
    simp [directChecks, specBlockJi, jrEff, h, _filter, List.all]

/-- Claim C4, counterexample to full-equality matching: the listed value
`ali` is a proper substring of the job's user `alice`, yet the node is
highlighted. -/
theorem C4_counterexample :
    (filter_node ⟨" ", ∅, ∅, ∅, [("123", ⟨"", "alice", "", ""⟩)]⟩
      ⟨none, none, none, some ["123"], none, some ["ali"], none⟩).1 = true ∧
    ("ali" : String) ≠ "alice" := by
  constructor
  · decide
  · decide

/-- Witness for C4: the substring characterization instantiated at a
concrete node carrying job 7 with user `bob`. -/
theorem C4_substring_matching_witness :
    (filter_node ⟨" ", ∅, ∅, ∅, [("7", ⟨"", "bob", "acct", "short"⟩)]⟩
      ⟨none, none, none, some ["7"], some ["bo"], none, none⟩).1 =
      strIn "bo" "short" ∧
    (filter_node ⟨" ", ∅, ∅, ∅, [("7", ⟨"", "bob", "acct", "short"⟩)]⟩
      ⟨none, none, none, some ["7"], none, some ["bo"], none⟩).1 =
      strIn "bo" "bob" ∧
    (filter_node ⟨" ", ∅, ∅, ∅, [("7", ⟨"", "bob", "acct", "short"⟩)]⟩
      ⟨none, none, none, some ["7"], none, none, some ["bo"]⟩).1 =
      strIn "bo" "acct" :=
  C4_substring_matching ⟨" ", ∅, ∅, ∅, [("7", ⟨"", "bob", "acct", "short"⟩)]⟩
    "7" ⟨"", "bob", "acct", "short"⟩ "bo" (by decide)

/-- Claim C7, amended: filter evaluation leaves the node's glyph,
partition/feature/gpu sets and every stored job entry unchanged, but it is
not pure — when the filter carries a `job_id` constraint together with a
non-empty job-scoped attribute constraint, each listed job id absent from
the node's job map is inserted with a blank default record.  Without a
`job_id` constraint, or without job-scoped attribute values, the node is
unchanged. -/
theorem C7_filter_mutation_characterized (node : NodeRec) (F : Filters) :
    ((filter_node node F).2.glyph = node.glyph ∧
     (filter_node node F).2.partition = node.partition ∧
     (filter_node node F).2.feature = node.feature ∧
     (filter_node node F).2.gpu_type = node.gpu_type) ∧
    (∀ j v, alookup node.job_info j = some v →
      alookup (filter_node node F).2.job_info j = some v) ∧
    (∀ j, alookup node.job_info j = none →
      alookup (filter_node node F).2.job_info j = none ∨
      (alookup (filter_node node F).2.job_info j = some defaultJobRec ∧
        (∃ jids, F.job_id = some jids ∧ j ∈ jids) ∧ hasJobAttrFilts F = true)) ∧
    (F.job_id = none → (filter_node node F).2 = node) ∧
    (hasJobAttrFilts F = false → (filter_node node F).2 = node) := by
  cases hJ : F.job_id with
  | none =>
      have he : (filter_node node F).2 = node := by
        unfold filter_node
        rw [hJ]
      rw [he]
      exact ⟨⟨rfl, rfl, rfl, rfl⟩, fun j v h => h, fun j h => Or.inl h,
        fun _ => rfl, fun _ => rfl⟩
  | some jids =>
      obtain ⟨f1, f2, f3⟩ := foldJi_facts F jids ([] : List Bool) node.job_info
      have he : (filter_node node F).2 =
          { node with job_info := (jids.foldl (jobIdStep F) ([], node.job_info)).2 } := by
        unfold filter_node
        rw [hJ]
      rw [he]
      refine ⟨⟨rfl, rfl, rfl, rfl⟩, ?_, ?_, ?_, ?_⟩
      · intro j v h
        exact f1 j v h
      · intro j h
        rcases f2 j h with h1 | ⟨h1, h2, h3⟩
        · exact Or.inl h1
        · exact Or.inr ⟨h1, ⟨jids, rfl, h2⟩, h3⟩
      · intro hnone
        cases hnone
      · intro hA
        rw [f3 hA]

/-- Claim C7, counterexample to purity: rendering one chassis cell with the
filter `{job_id: [999], user: [bob]}` inserts a blank job entry `999` into
the registry record of the rendered node. -/
theorem C7_counterexample :
    ((renderRow (fun _ => defaultNodeRec .ascii)
        ⟨none, none, none, some ["999"], none, some ["bob"], none⟩
        .ascii .cpu "31" "gpu" 1).2 "gpu01").job_info = [("999", defaultJobRec)] ∧
    (defaultNodeRec CharType.ascii).job_info = [] := by
  constructor
  · decide
  · rfl

/-- Witness for C7: the characterization instantiated concretely — with no
`job_id` constraint the node is unchanged, and a stored entry survives a
`job_id`-filtered evaluation. -/
theorem C7_filter_mutation_characterized_witness :
    (filter_node ⟨" ", ∅, ∅, ∅, []⟩ emptyFilters).2 = ⟨" ", ∅, ∅, ∅, []⟩ ∧
    alookup (filter_node ⟨" ", ∅, ∅, ∅, [("5", defaultJobRec)]⟩
      ⟨none, none, none, some ["5"], none, some ["u"], none⟩).2.job_info "5" =
      some defaultJobRec :=
  ⟨(C7_filter_mutation_characterized ⟨" ", ∅, ∅, ∅, []⟩ emptyFilters).2.2.2.1 rfl,
   (C7_filter_mutation_characterized ⟨" ", ∅, ∅, ∅, [("5", defaultJobRec)]⟩
      ⟨none, none, none, some ["5"], none, some ["u"], none⟩).2.1
      "5" defaultJobRec (by decide)⟩

theorem getD_mem_of_lt (l : List ℚ) (i : ℕ) (h : i < l.length) : l.getD i 0 ∈ l := by
  rw [List.getD_eq_getElem l 0 h]
  exact List.getElem_mem h

theorem bisectGo_spec (a : List ℚ) (x : ℚ)
    (hmono : ∀ i j, i ≤ j → j < a.length → a.getD i 0 ≤ a.getD j 0) :
    ∀ (fuel lo hi : ℕ), lo ≤ hi → hi ≤ a.length → hi - lo ≤ fuel →
      (∀ i, i < lo → a.getD i 0 < x) →
      (∀ i, hi ≤ i → i < a.length → ¬ a.getD i 0 < x) →
      (bisectGo a x fuel lo hi ≤ a.length ∧
       (∀ i, i < bisectGo a x fuel lo hi → a.getD i 0 < x) ∧
       (∀ i, bisectGo a x fuel lo hi ≤ i → i < a.length → ¬ a.getD i 0 < x)) := by
  intro fuel
  induction fuel with
  | zero =>
      intro lo hi h1 h2 h3 h4 h5
      have he : hi = lo := by omega
      subst he
      exact ⟨h2, h4, h5⟩
  | succ fuel ih =>
      intro lo hi h1 h2 h3 h4 h5
      rw [bisectGo]
      by_cases hlh : lo < hi
      · rw [if_pos hlh]
        by_cases hmid : a.getD ((lo + hi) / 2) 0 < x
        · rw [if_pos hmid]
          apply ih ((lo + hi) / 2 + 1) hi
          · omega
          · exact h2
          · omega
          · intro i hi2
            by_cases hlt : i < lo
            · exact h4 i hlt
            · have hile : i ≤ (lo + hi) / 2 := by omega
              exact lt_of_le_of_lt (hmono i ((lo + hi) / 2) hile (by omega)) hmid
          · exact h5
        · rw [if_neg hmid]
          apply ih lo ((lo + hi) / 2)
          · omega
          · omega
          · omega
          · exact h4
          · intro i hge hlen
            by_cases hge2 : hi ≤ i
            · exact h5 i hge2 hlen
            · intro hcon
              exact hmid (lt_of_le_of_lt (hmono ((lo + hi) / 2) i hge hlen) hcon)
      · rw [if_neg hlh]
        have he : hi = lo := by omega
        subst he
        exact ⟨h2, h4, h5⟩

theorem get_closest_spec (nums : List ℚ) (x : ℚ) (hne : nums ≠ [])
    (hsort : List.Chain' (· < ·) nums) :
    get_closest nums x ∈ nums ∧
    (∀ b ∈ nums, |get_closest nums x - x| ≤ |b - x|) ∧
    (∀ b ∈ nums, |b - x| = |get_closest nums x - x| → get_closest nums x ≤ b) := by
  have hlen0 : 0 < nums.length := List.length_pos.mpr hne
  have hstrict : ∀ i j, i < j → j < nums.length → nums.getD i 0 < nums.getD j 0 := by
    intro i j hij hj
    rw [List.getD_eq_getElem nums 0 (lt_trans hij hj), List.getD_eq_getElem nums 0 hj]
    have hp := List.chain'_iff_pairwise.mp hsort
    rw [List.pairwise_iff_getElem] at hp
    exact hp i j (lt_trans hij hj) hj hij
  have hmono : ∀ i j, i ≤ j → j < nums.length → nums.getD i 0 ≤ nums.getD j 0 := by
    intro i j hij hj
    rcases eq_or_lt_of_le hij with he | hlt
    · rw [he]
    · exact le_of_lt (hstrict i j hlt hj)
  have hspec := bisectGo_spec nums x hmono nums.length 0 nums.length (by omega)
    (le_refl _) (by omega) (fun i hi => absurd hi (Nat.not_lt_zero i))
    (fun i h1 h2 => absurd h2 (not_lt.mpr h1))
  rw [show bisectGo nums x nums.length 0 nums.length = bisect_left nums x from rfl] at hspec
  obtain ⟨hple, hbelow, habove⟩ := hspec
  have hmemb : ∀ b ∈ nums, ∃ i, i < nums.length ∧ nums.getD i 0 = b := by
    intro b hb
    obtain ⟨i, hi, hbi⟩ := List.mem_iff_getElem.mp hb
    exact ⟨i, hi, by rw [List.getD_eq_getElem nums 0 hi, hbi]⟩
  by_cases h0 : bisect_left nums x = 0
  · have hr : get_closest nums x = nums.getD 0 0 := by
      unfold get_closest
      rw [if_pos h0]
    have hge : ∀ i, i < nums.length → x ≤ nums.getD i 0 := by
      intro i hi
      exact not_lt.mp (habove i (by omega) hi)
    have hx0 : x ≤ nums.getD 0 0 := hge 0 hlen0
    rw [hr]
    refine ⟨getD_mem_of_lt nums 0 hlen0, ?_, ?_⟩
    · intro b hb
      obtain ⟨i, hi, hbi⟩ := hmemb b hb
      have h1 : nums.getD 0 0 ≤ b := hbi ▸ hmono 0 i (by omega) hi
      have h2 : x ≤ b := hbi ▸ hge i hi
      rw [abs_of_nonneg (by linarith), abs_of_nonneg (by linarith)]
      linarith
    · intro b hb _
      obtain ⟨i, hi, hbi⟩ := hmemb b hb
      exact hbi ▸ hmono 0 i (by omega) hi
  · by_cases hL : bisect_left nums x = nums.length
    · have hr : get_closest nums x = nums.getD (nums.length - 1) 0 := by
        unfold get_closest
        rw [if_neg h0, if_pos hL]
      have hlt : ∀ i, i < nums.length → nums.getD i 0 < x := by
        intro i hi
        exact hbelow i (by omega)
      have hxL : nums.getD (nums.length - 1) 0 < x := hlt _ (by omega)
      rw [hr]
      refine ⟨getD_mem_of_lt nums _ (by omega), ?_, ?_⟩
      · intro b hb
        obtain ⟨i, hi, hbi⟩ := hmemb b hb
        have h1 : b ≤ nums.getD (nums.length - 1) 0 := hbi ▸ hmono i _ (by omega) (by omega)
        have h2 : b < x := hbi ▸ hlt i hi
        rw [abs_of_nonpos (by linarith), abs_of_nonpos (by linarith), neg_sub, neg_sub]
        linarith
      · intro b hb heq
        obtain ⟨i, hi, hbi⟩ := hmemb b hb
        have h1 : b ≤ nums.getD (nums.length - 1) 0 := hbi ▸ hmono i _ (by omega) (by omega)
        have h2 : b < x := hbi ▸ hlt i hi
        rw [abs_of_nonpos (by linarith : b - x ≤ 0),
          abs_of_nonpos (by linarith : nums.getD (nums.length - 1) 0 - x ≤ 0),
          neg_sub, neg_sub] at heq
        linarith
    · have hposlt : bisect_left nums x < nums.length := lt_of_le_of_ne hple hL
      have hpos0 : 0 < bisect_left nums x := Nat.pos_of_ne_zero h0
      have hbef : nums.getD (bisect_left nums x - 1) 0 < x := hbelow _ (by omega)
      have haft : x ≤ nums.getD (bisect_left nums x) 0 :=
        not_lt.mp (habove _ (le_refl _) hposlt)
      have hba : nums.getD (bisect_left nums x - 1) 0 ≤ nums.getD (bisect_left nums x) 0 :=
        hmono _ _ (by omega) hposlt
      by_cases hc : nums.getD (bisect_left nums x) 0 - x <
          x - nums.getD (bisect_left nums x - 1) 0
      · have hr : get_closest nums x = nums.getD (bisect_left nums x) 0 := by
          unfold get_closest
          rw [if_neg h0, if_neg hL, if_pos hc]
        rw [hr]
        refine ⟨getD_mem_of_lt nums _ hposlt, ?_, ?_⟩
        · intro b hb
          obtain ⟨i, hi, hbi⟩ := hmemb b hb
          rw [abs_of_nonneg (by linarith)]
          by_cases hip : i < bisect_left nums x
          · have h1 : b ≤ nums.getD (bisect_left nums x - 1) 0 :=
              hbi ▸ hmono i _ (by omega) (by omega)
            rw [abs_of_nonpos (by linarith), neg_sub]
            linarith
          · have h1 : nums.getD (bisect_left nums x) 0 ≤ b :=
              hbi ▸ hmono _ i (by omega) hi
            rw [abs_of_nonneg (by linarith)]
            linarith
        · intro b hb heq
          obtain ⟨i, hi, hbi⟩ := hmemb b hb
          by_cases hip : i < bisect_left nums x
          · have h1 : b ≤ nums.getD (bisect_left nums x - 1) 0 :=
              hbi ▸ hmono i _ (by omega) (by omega)
            rw [abs_of_nonneg (by linarith : (0:ℚ) ≤ nums.getD (bisect_left nums x) 0 - x),
              abs_of_nonpos (by linarith : b - x ≤ 0), neg_sub] at heq
            linarith
          · exact hbi ▸ hmono _ i (by omega) hi
      · have hr : get_closest nums x = nums.getD (bisect_left nums x - 1) 0 := by
          unfold get_closest
          rw [if_neg h0, if_neg hL, if_neg hc]
        rw [hr]
        refine ⟨getD_mem_of_lt nums _ (by omega), ?_, ?_⟩
        · intro b hb
          obtain ⟨i, hi, hbi⟩ := hmemb b hb
          rw [abs_of_nonpos (by linarith), neg_sub]
          by_cases hip : i < bisect_left nums x
          · have h1 : b ≤ nums.getD (bisect_left nums x - 1) 0 :=
              hbi ▸ hmono i _ (by omega) (by omega)
            rw [abs_of_nonpos (by linarith), neg_sub]
            linarith
          · have h1 : nums.getD (bisect_left nums x) 0 ≤ b :=
              hbi ▸ hmono _ i (by omega) hi
            rw [abs_of_nonneg (by linarith)]
            linarith
        · intro b hb heq
          obtain ⟨i, hi, hbi⟩ := hmemb b hb
          by_cases hip : i < bisect_left nums x
          · have h1 : b ≤ nums.getD (bisect_left nums x - 1) 0 :=
              hbi ▸ hmono i _ (by omega) (by omega)
            rw [abs_of_nonpos (by linarith : nums.getD (bisect_left nums x - 1) 0 - x ≤ 0),
              abs_of_nonpos (by linarith : b - x ≤ 0), neg_sub, neg_sub] at heq
            linarith
          · have h1 : nums.getD (bisect_left nums x) 0 ≤ b :=
              hbi ▸ hmono _ i (by omega) hi
            linarith

theorem get_closest_eq_of (nums : List ℚ) (x c : ℚ) (hne : nums ≠ [])
    (hsort : List.Chain' (· < ·) nums) (hcmem : c ∈ nums)
    (hcmin : ∀ b ∈ nums, |c - x| ≤ |b - x|)
    (hctie : ∀ b ∈ nums, |b - x| = |c - x| → c ≤ b) :
    get_closest nums x = c := by
  obtain ⟨hm, hmin, htie⟩ := get_closest_spec nums x hne hsort
  have h1 : |get_closest nums x - x| ≤ |c - x| := hmin c hcmem
  have h2 : |c - x| ≤ |get_closest nums x - x| := hcmin _ hm
  have heq : |c - x| = |get_closest nums x - x| := le_antisymm h2 h1
  have ha : get_closest nums x ≤ c := htie c hcmem heq
  have hb : c ≤ get_closest nums x := hctie _ hm heq.symm
  linarith

/-- Claim C6: for every ascending non-empty boundary list and every input
fraction, `get_closest` returns a boundary of minimal distance to the
fraction, returning the smaller boundary on an exact tie (fractions outside
the range therefore clamp to the end buckets); in particular on the eighths
boundary list of the utf8 usage glyphs, 1/2 maps to 1/2, 0.95 clamps to
7/8, 0.05 clamps to 1/8, and the exact tie 0.1875 resolves down to 1/8. -/
theorem C6_nearest_bucket :
    (∀ (nums : List ℚ) (x : ℚ), nums ≠ [] → List.Chain' (· < ·) nums →
      (get_closest nums x ∈ nums ∧
       (∀ b ∈ nums, |get_closest nums x - x| ≤ |b - x|) ∧
       (∀ b ∈ nums, |b - x| = |get_closest nums x - x| → get_closest nums x ≤ b))) ∧
    get_closest ((genUsageGlyphs .utf8).map Prod.fst) (1/2) = 1/2 ∧
    get_closest ((genUsageGlyphs .utf8).map Prod.fst) (19/20) = 7/8 ∧
    get_closest ((genUsageGlyphs .utf8).map Prod.fst) (1/20) = 1/8 ∧
    get_closest ((genUsageGlyphs .utf8).map Prod.fst) (3/16) = 1/8 := by
  have hL : (genUsageGlyphs .utf8).map Prod.fst =
      [1/8, 2/8, 3/8, 4/8, 5/8, 6/8, 7/8] := rfl
  have hne : (genUsageGlyphs CharType.utf8).map Prod.fst ≠ [] := by
    rw [hL]
    simp
  have hsort : List.Chain' (· < ·) ((genUsageGlyphs .utf8).map Prod.fst) := by
    rw [hL]
    norm_num [List.chain'_cons, List.chain'_singleton]
  refine ⟨fun nums x h1 h2 => get_closest_spec nums x h1 h2, ?_, ?_, ?_, ?_⟩ <;>
  · refine get_closest_eq_of _ _ _ hne hsort ?_ ?_ ?_
    · rw [hL]
      norm_num
    · intro b hb
      rw [hL] at hb
      fin_cases hb <;> norm_num [abs, max_def]
    · intro b hb
      rw [hL] at hb
      fin_cases hb <;> norm_num [abs, max_def]

/-- Witness for C6: the nearest-bucket properties instantiated on the
utf8 eighths boundary list at the tie point 3/16. -/
theorem C6_nearest_bucket_witness :
    get_closest ((genUsageGlyphs .utf8).map Prod.fst) (3/16) ∈
      (genUsageGlyphs .utf8).map Prod.fst ∧
    (∀ b ∈ (genUsageGlyphs .utf8).map Prod.fst,
      |get_closest ((genUsageGlyphs .utf8).map Prod.fst) (3/16) - 3/16| ≤ |b - 3/16|) ∧
    (∀ b ∈ (genUsageGlyphs .utf8).map Prod.fst,
      |b - 3/16| = |get_closest ((genUsageGlyphs .utf8).map Prod.fst) (3/16) - 3/16| →
        get_closest ((genUsageGlyphs .utf8).map Prod.fst) (3/16) ≤ b) :=
  C6_nearest_bucket.1 ((genUsageGlyphs .utf8).map Prod.fst) (3/16)
    (by rw [show (genUsageGlyphs CharType.utf8).map Prod.fst =
        [1/8, 2/8, 3/8, 4/8, 5/8, 6/8, 7/8] from rfl]; simp)
    (by rw [show (genUsageGlyphs CharType.utf8).map Prod.fst =
        [1/8, 2/8, 3/8, 4/8, 5/8, 6/8, 7/8] from rfl]
        norm_num [List.chain'_cons, List.chain'_singleton])

theorem firstIdx_eq_none_of_not_mem (ch : Char) (l : List Char) (h : ch ∉ l) :
    firstIdx ch l = none := by
  induction l with
  | nil => rfl
  | cons c t ih =>
      rw [firstIdx, if_neg (fun he => h (by rw [← he]; exact List.mem_cons_self c t)),
        ih (fun hm => h (List.mem_cons_of_mem c hm))]
      rfl

theorem firstIdx_append_of_not_mem (ch : Char) (xs ys : List Char) (h : ch ∉ xs) :
    firstIdx ch (xs ++ ys) = (firstIdx ch ys).map (fun i => i + xs.length) := by
  induction xs with
  | nil => simp
  | cons c t ih =>
      rw [List.cons_append, firstIdx,
        if_neg (fun he => h (by rw [← he]; exact List.mem_cons_self c t)),
        ih (fun hm => h (List.mem_cons_of_mem c hm))]
      cases firstIdx ch ys with
      | none => rfl
      | some i => simp [Nat.add_assoc]

theorem mapM_eq_none_of_mem {α β : Type} (f : α → Option β) (l : List α) (a : α)
    (ha : a ∈ l) (hf : f a = none) : l.mapM f = none := by
  induction l with
  | nil => cases ha
  | cons x t ih =>
      rcases List.mem_cons.mp ha with he | ht
      · subst he
        rw [List.mapM_cons, hf]
        rfl
      · cases hx : f x with
        | none =>
            rw [List.mapM_cons, hx]
            rfl
        | some v =>
            rw [List.mapM_cons, hx, ih ht]
            rfl

theorem mapM_eq_map {α β : Type} (f : α → Option β) (g : α → β) (l : List α)
    (h : ∀ a ∈ l, f a = some (g a)) : l.mapM f = some (l.map g) := by
  induction l with
  | nil => rfl
  | cons x t ih =>
      rw [List.mapM_cons, h x (List.mem_cons_self x t),
        ih (fun a ha => h a (List.mem_cons_of_mem x ha))]
      rfl

theorem expandScan_eq (l : List Char) : ∀ (d : Int) (seg : List Char),
    expandScan l d seg = ((splitTopGo l d seg).mapM _expand_part).map List.flatten := by
  induction l with
  | nil =>
      intro d seg
      rw [show splitTopGo [] d seg = [seg.reverse] from rfl, List.mapM_cons, List.mapM_nil]
      cases h : _expand_part seg.reverse with
      | none => simp [expandScan, h]
      | some a => simp [expandScan, h]
  | cons c rest ih =>
      intro d seg
      by_cases hc : d = 0 ∧ c = ','
      · rw [expandScan, splitTopGo, if_pos hc, if_pos hc, List.mapM_cons]
        cases h : _expand_part seg.reverse with
        | none => simp [h]
        | some a =>
            rw [ih (d + bracketDelta c) []]
            cases h2 : (splitTopGo rest (d + bracketDelta c) []).mapM _expand_part with
            | none => simp [h, h2]
            | some bs => simp [h, h2]
      · rw [expandScan, splitTopGo, if_neg hc, if_neg hc]
        exact ih (d + bracketDelta c) (c :: seg)

theorem splitTopGo_append_no_comma (xs : List Char) :
    ∀ (ys : List Char) (d : Int) (seg : List Char), hasTopComma xs d = false →
      splitTopGo (xs ++ ys) d seg = splitTopGo ys (deltaFrom d xs) (xs.reverse ++ seg) := by
  induction xs with
  | nil => intro ys d seg _; simp [deltaFrom]
  | cons c t ih =>
      intro ys d seg h
      simp only [hasTopComma, Bool.or_eq_false_iff, decide_eq_false_iff_not] at h
      obtain ⟨h1, h2⟩ := h
      rw [List.cons_append, splitTopGo, if_neg h1, ih ys (d + bracketDelta c) (c :: seg) h2,
        show deltaFrom d (c :: t) = deltaFrom (d + bracketDelta c) t from rfl]
      simp

theorem topSegments_split_at_comma (xs ys : List Char) (h1 : hasTopComma xs 0 = false)
    (h2 : deltaSum xs = 0) :
    topSegments (xs ++ ',' :: ys) = xs :: topSegments ys := by
  unfold topSegments
  rw [splitTopGo_append_no_comma xs (',' :: ys) 0 [] h1,
    show deltaFrom 0 xs = 0 from h2, splitTopGo, if_pos ⟨rfl, rfl⟩]
  simp [bracketDelta]

theorem topSegments_single (l : List Char) (h : hasTopComma l 0 = false) :
    topSegments l = [l] := by
  unfold topSegments
  have hs := splitTopGo_append_no_comma l [] 0 [] h
  rw [List.append_nil] at hs
  rw [hs]
  simp [splitTopGo]

theorem expand_part_no_bracket (p : List Char) (h : '[' ∉ p) :
    _expand_part p = some [p] := by
  unfold _expand_part
  rw [if_neg h]

theorem expand_part_missing_close (p : List Char) (h1 : '[' ∈ p) (h2 : ']' ∉ p) :
    _expand_part p = none := by
  unfold _expand_part
  rw [if_pos h1, firstIdx_eq_none_of_not_mem ']' p h2]

theorem parseNatL_some (l : List Char) (n : ℕ) (h : parseNatL l = some n) :
    n = natVal l := by
  unfold parseNatL at h
  by_cases hc : l ≠ [] ∧ l.all Char.isDigit
  · rw [if_pos hc] at h
    exact (Option.some_inj.mp h).symm
  · rw [if_neg hc] at h
    cases h

theorem expand_part_bracket (pre body : List Char)
    (hp1 : '[' ∉ pre) (hp2 : ']' ∉ pre) (hb1 : '[' ∉ body) (hb2 : ']' ∉ body)
    (hwf : ∀ it ∈ splitOnChar ',' body, specItemWF it = true) :
    _expand_part (pre ++ '[' :: body ++ [']']) =
      some ((splitOnChar ',' body).flatMap (specItemYield pre)) := by
  have hmem : '[' ∈ pre ++ '[' :: body ++ [']'] := by simp
  have hfr : firstIdx ']' (pre ++ '[' :: body ++ [']']) =
      some (pre ++ '[' :: body).length := by
    rw [show pre ++ '[' :: body ++ [']'] = (pre ++ '[' :: body) ++ [']'] from by simp,
      firstIdx_append_of_not_mem ']' _ _ (by
        intro hm
        rcases List.mem_append.mp hm with hma | hmb
        · exact hp2 hma
        · rcases List.mem_cons.mp hmb with he | hmb2
          · exact absurd he (by decide)
          · exact hb2 hmb2),
      show firstIdx ']' [']'] = some 0 from rfl]
    simp
  have hfl : firstIdx '[' (pre ++ '[' :: body ++ [']']) = some pre.length := by
    rw [show pre ++ '[' :: body ++ [']'] = pre ++ ('[' :: (body ++ [']'])) from by simp,
      firstIdx_append_of_not_mem '[' _ _ hp1,
      show firstIdx '[' ('[' :: (body ++ [']'])) = some 0 from by
        rw [firstIdx, if_pos rfl]]
    simp
  have htake : (pre ++ '[' :: body ++ [']']).take (pre ++ '[' :: body).length =
      pre ++ '[' :: body := by
    rw [show pre ++ '[' :: body ++ [']'] = (pre ++ '[' :: body) ++ [']'] from by simp]
    exact List.take_left _ _
  have hdrop : (pre ++ '[' :: body).drop (pre.length + 1) = body := by
    rw [show pre ++ '[' :: body = (pre ++ ['[']) ++ body from by simp,
      show pre.length + 1 = (pre ++ ['[']).length from by simp]
    exact List.drop_left _ _
  have hpre : List.take pre.length (pre ++ '[' :: body ++ [']']) = pre := by
    rw [show pre ++ '[' :: body ++ [']'] = pre ++ ('[' :: (body ++ [']'])) from by simp]
    exact List.take_left _ _
  unfold _expand_part
  rw [if_pos hmem, hfr, hfl]
  dsimp only [Option.getD_some]
  rw [htake, hdrop]
  simp only [hpre]
  rw [mapM_eq_map _ (specItemYield pre) _ ?hpt]
  case hpt =>
    intro it hit
    have hw := hwf it hit
    unfold specItemWF at hw
    unfold specItemYield
    by_cases hd : '-' ∈ it
    · rw [if_pos hd] at hw
      rw [if_pos hd, if_pos hd]
      cases hlo : parseNatL (it.takeWhile (fun c => c ≠ '-')) with
      | none => rw [hlo] at hw; simp at hw
      | some lo =>
          cases hhi : parseNatL ((it.dropWhile (fun c => c ≠ '-')).drop 1) with
          | none => rw [hlo, hhi] at hw; simp at hw
          | some hi =>
              rw [parseNatL_some _ _ hlo, parseNatL_some _ _ hhi]
    · rw [if_neg hd, if_neg hd]
  simp [List.flatMap_def]

/-- Claim C3: hostlist expansion splits on top-level commas only (a comma
scanned at bracket depth zero is a split point, a string with no such comma
is a single segment even if it contains commas inside brackets), the
expansion is the concatenation of the per-segment expansions, a
bracket-free segment is yielded unchanged, a segment `pre[body]` yields for
each comma sub-item either `pre + subitem` (no dash) or the increasing
range `pre + str(i)` zero-padded to the width of the low literal; in
particular `c13n[01-03,05]` expands to exactly `c13n01,c13n02,c13n03,c13n05`
and `a,b[1-2]` to `a,b1,b2`. -/
theorem C3_hostlist_expansion :
    (∀ xs ys : List Char, hasTopComma xs 0 = false → deltaSum xs = 0 →
      topSegments (xs ++ ',' :: ys) = xs :: topSegments ys) ∧
    (∀ l : List Char, hasTopComma l 0 = false → topSegments l = [l]) ∧
    (∀ l : List Char,
      expandScan l 0 [] = ((topSegments l).mapM _expand_part).map List.flatten) ∧
    (∀ p : List Char, '[' ∉ p → _expand_part p = some [p]) ∧
    (∀ pre body : List Char, '[' ∉ pre → ']' ∉ pre → '[' ∉ body → ']' ∉ body →
      (∀ it ∈ splitOnChar ',' body, specItemWF it = true) →
      _expand_part (pre ++ '[' :: body ++ [']']) =
        some ((splitOnChar ',' body).flatMap (specItemYield pre))) ∧
    expand_node_list "c13n[01-03,05]" = some ["c13n01", "c13n02", "c13n03", "c13n05"] ∧
    expand_node_list "a,b[1-2]" = some ["a", "b1", "b2"] := by
  refine ⟨topSegments_split_at_comma, topSegments_single,
    fun l => expandScan_eq l 0 [], expand_part_no_bracket, expand_part_bracket,
    by decide, by decide⟩

/-- Witness for C3: the structural clauses instantiated on concrete
segments — `a,b` splits at the top-level comma, `a[1,2]` stays one segment,
`ab` passes through, and `b[1-2]` expands to the padded range. -/
theorem C3_hostlist_expansion_witness :
    topSegments ("a,b".toList) = ["a".toList, "b".toList] ∧
    topSegments ("a[1,2]".toList) = ["a[1,2]".toList] ∧
    _expand_part ("ab".toList) = some ["ab".toList] ∧
    _expand_part ("b[1-2]".toList) =
      some ((splitOnChar ',' "1-2".toList).flatMap (specItemYield "b".toList)) := by
  refine ⟨?_, ?_, ?_, ?_⟩
  · have := C3_hostlist_expansion.1 "a".toList "b".toList (by decide) (by decide)
    simpa using this
  · exact C3_hostlist_expansion.2.1 "a[1,2]".toList (by decide)
  · exact C3_hostlist_expansion.2.2.2.1 "ab".toList (by decide)
  · have := C3_hostlist_expansion.2.2.2.2.1 "b".toList "1-2".toList
      (by decide) (by decide) (by decide) (by decide) (by decide)
    simpa using this

/-- Claim C8, amended: only a segment containing `[` with no `]` aborts
expansion (with an uncaught `ValueError` that does not name the segment);
a segment with no `[` — in particular one carrying a stray unmatched `]` —
is yielded unchanged, so expansion of such unbalanced input succeeds
silently with malformed names. -/
theorem C8_unbalanced_bracket_behavior :
    (∀ (s : String) (seg : List Char), seg ∈ topSegments s.toList → '[' ∈ seg →
      ']' ∉ seg → expand_node_list s = none) ∧
    (∀ p : List Char, '[' ∉ p → _expand_part p = some [p]) ∧
    (balancedBrackets "ab]".toList = false ∧ expand_node_list "ab]" = some ["ab]"]) := by
  refine ⟨?_, expand_part_no_bracket, by decide, by decide⟩
  intro s seg hseg h1 h2
  unfold expand_node_list
  rw [expandScan_eq s.toList 0 [],
    mapM_eq_none_of_mem _expand_part (splitTopGo s.toList 0 []) seg hseg
      (expand_part_missing_close seg h1 h2)]
  rfl

/-- Claim C8, counterexample: the input `ab]` has unbalanced brackets, yet
expansion succeeds silently, yielding the malformed name unchanged instead
of raising a parse error. -/
theorem C8_counterexample :
    balancedBrackets "ab]".toList = false ∧
    expand_node_list "ab]" = some ["ab]"] := by
  exact ⟨by decide, by decide⟩

/-- Witness for C8: a segment containing `[` without `]` makes the whole
expansion fail. -/
theorem C8_unbalanced_bracket_behavior_witness :
    expand_node_list "a[" = none :=
  C8_unbalanced_bracket_behavior.1 "a[" "a[".toList (by decide) (by decide) (by decide)

theorem updFun_comm (f : String → NodeRec) (k1 k2 : String) (g1 g2 : NodeRec → NodeRec)
    (hcomm : ∀ rec, g1 (g2 rec) = g2 (g1 rec)) :
    updFun (updFun f k1 g1) k2 g2 = updFun (updFun f k2 g2) k1 g1 := by
  funext k
  unfold updFun
  by_cases h2 : k = k2
  · by_cases h1 : k = k1
    · simp only [if_pos h1, if_pos h2]
      exact (hcomm (f k)).symm
    · simp only [if_pos h2, if_neg h1]
  · by_cases h1 : k = k1
    · simp only [if_neg h2, if_pos h1]
    · simp only [if_neg h2, if_neg h1]

theorem jobNodeUpd_apply_comm (mode : ShowUsage) (gs : ℕ → String) (rj : SacctRec)
    (jmc : List (String × String) × ℕ) (node : String) (ct : CharType) (r : SinfoRec)
    (cn : String × ℕ) (cpu mem : ℚ) (st : Registry) :
    (jobNodeUpd mode gs rj jmc node).1 (nodeLineApply ct mode r cn cpu mem st) =
      nodeLineApply ct mode r cn cpu mem ((jobNodeUpd mode gs rj jmc node).1 st) := by
  cases mode
  all_goals unfold jobNodeUpd nodeLineApply
  all_goals dsimp only
  all_goals congr 1
  all_goals first
    | rfl
    | exact updFun_comm _ _ _ _ _ (fun rec => rfl)

theorem jobFold_apply_comm (mode : ShowUsage) (gs : ℕ → String) (rj : SacctRec)
    (ct : CharType) (r : SinfoRec) (cn : String × ℕ) (cpu mem : ℚ)
    (nodes : List String) :
    ∀ (jmc : List (String × String) × ℕ) (st : Registry),
      nodes.foldl (jobFoldStep mode gs rj) (nodeLineApply ct mode r cn cpu mem st, jmc) =
        (nodeLineApply ct mode r cn cpu mem
          (nodes.foldl (jobFoldStep mode gs rj) (st, jmc)).1,
         (nodes.foldl (jobFoldStep mode gs rj) (st, jmc)).2) := by
  induction nodes with
  | nil => intro jmc st; rfl
  | cons n t ih =>
      intro jmc st
      rw [List.foldl_cons, List.foldl_cons,
        show jobFoldStep mode gs rj (nodeLineApply ct mode r cn cpu mem st, jmc) n =
          ((jobNodeUpd mode gs rj jmc n).1 (nodeLineApply ct mode r cn cpu mem st),
           (jobNodeUpd mode gs rj jmc n).2) from rfl,
        show jobFoldStep mode gs rj (st, jmc) n =
          ((jobNodeUpd mode gs rj jmc n).1 st, (jobNodeUpd mode gs rj jmc n).2) from rfl,
        jobNodeUpd_apply_comm]
      exact ih (jobNodeUpd mode gs rj jmc n).2 ((jobNodeUpd mode gs rj jmc n).1 st)

theorem addJobAux_apply_comm (mode : ShowUsage) (gs : ℕ → String) (ct : CharType)
    (r : SinfoRec) (cn : String × ℕ) (cpu mem : ℚ) :
    ∀ (jl : List SacctRec) (jmc : List (String × String) × ℕ) (st : Registry),
      (addJobAux mode gs jl jmc st).map (nodeLineApply ct mode r cn cpu mem) =
        addJobAux mode gs jl jmc (nodeLineApply ct mode r cn cpu mem st) := by
  intro jl
  induction jl with
  | nil => intro jmc st; rfl
  | cons rj rs ih =>
      intro jmc st
      show (addJobAux mode gs (rj :: rs) jmc st).map (nodeLineApply ct mode r cn cpu mem) =
        addJobAux mode gs (rj :: rs) jmc (nodeLineApply ct mode r cn cpu mem st)
      rw [addJobAux, addJobAux]
      cases he : expand_node_list rj.NodeList with
      | none => rfl
      | some nodes =>
          dsimp only
          rw [jobFold_apply_comm mode gs rj ct r cn cpu mem nodes jmc st]
          exact ih (nodes.foldl (jobFoldStep mode gs rj) (st, jmc)).2
            (nodes.foldl (jobFoldStep mode gs rj) (st, jmc)).1

/-- Claim C5: the final registry (per-node glyphs, partition/feature/gpu
sets, job maps) and chassis layout are independent of the order in which
the node-state stream and the job-accounting stream are ingested, for
every pair of input streams and every display mode and character set. -/
theorem C5_ingestion_order_independent (ct : CharType) (mode : ShowUsage)
    (gs : ℕ → String) (jl : List SacctRec) (nl : List SinfoRec) (st : Registry) :
    (add_job_info mode gs jl st).bind (add_node_info ct mode nl) =
      (add_node_info ct mode nl st).bind (add_job_info mode gs jl) := by
  induction nl generalizing st with
  | nil =>
      cases hjs : add_job_info mode gs jl st with
      | none => exact hjs.symm
      | some st2 => exact hjs.symm
  | cons r rs ih =>
      cases hp : nodeLineParse r with
      | none =>
          have hn : nodeLineUpd ct mode r = none := by
            rw [nodeLineUpd, hp]
            rfl
          have hnone : ∀ st2, add_node_info ct mode (r :: rs) st2 = none := by
            intro st2
            rw [add_node_info, hn]
          rw [hnone st]
          cases hjs : add_job_info mode gs jl st with
          | none => rfl
          | some st2 => simp [hnone]
      | some x =>
          have hu : nodeLineUpd ct mode r =
              some (nodeLineApply ct mode r x.1 x.2.1 x.2.2) := by
            rw [nodeLineUpd, hp]
            rfl
          have hstep : ∀ st2, add_node_info ct mode (r :: rs) st2 =
              add_node_info ct mode rs (nodeLineApply ct mode r x.1 x.2.1 x.2.2 st2) := by
            intro st2
            rw [add_node_info, hu]
          have h1 : (add_job_info mode gs jl st).bind (add_node_info ct mode (r :: rs)) =
              ((add_job_info mode gs jl st).map
                (nodeLineApply ct mode r x.1 x.2.1 x.2.2)).bind (add_node_info ct mode rs) := by
            cases hjs : add_job_info mode gs jl st with
            | none => rfl
            | some st2 => simp [hstep]
          rw [hstep st, h1,
            show (add_job_info mode gs jl st).map (nodeLineApply ct mode r x.1 x.2.1 x.2.2) =
              add_job_info mode gs jl (nodeLineApply ct mode r x.1 x.2.1 x.2.2 st) from
                addJobAux_apply_comm mode gs ct r x.1 x.2.1 x.2.2 jl ([], 0) st]
          exact ih (nodeLineApply ct mode r x.1 x.2.1 x.2.2 st)

/-- Claim C10, amended: rendering looks a chassis-`c` node up under
`chassis + n + %02d-padded index` and any other node under
`chassis + %02d-padded index`; a registry node whose stored name differs
from that format (a one-digit index such as `gpu2`, or a `c`-chassis name
without the `n` infix) is never consulted and its position renders the
absent glyph — but an unpadded index of three or more digits such as
`gpu100` coincides with the `%02d` rendering and is found. -/
theorem C10_lookup_name_format :
    (lookupName "c13" 5 = "c13n05" ∧ lookupName "gpu" 2 = "gpu02" ∧
     lookupName "gpu" 100 = "gpu100" ∧ lookupName "c13" 123 = "c13n123" ∧
     lookupName "c" 5 = "cn05") ∧
    (∀ (info : String → NodeRec) (ct : CharType) (color chas : String) (ns : List ℕ),
      (∀ n ∈ ns, info (lookupName chas n) = defaultNodeRec ct) →
      (renderRowGo emptyFilters ct .cpu color chas ns info).1 =
        List.replicate ns.length (genStateGlyphs ct).not_a_node) ∧
    (renderRow (updFun (fun _ => defaultNodeRec .ascii) "gpu2"
        (fun r => { r with glyph := "5" })) emptyFilters .ascii .cpu "31" "gpu" 2).1 =
      [" ", " "] := by
  refine ⟨⟨by decide, by decide, by decide, by decide, by decide⟩, ?_, by decide⟩
  intro info ct color chas ns
  induction ns generalizing info with
  | nil => intro _; rfl
  | cons n t ih =>
      intro h
      show (renderRowGo emptyFilters ct .cpu color chas (n :: t) info).1 =
        List.replicate (n :: t).length (genStateGlyphs ct).not_a_node
      have hnum : ¬ 0 < numFilters emptyFilters := by decide
      have hboth : ¬ (ShowUsage.cpu = ShowUsage.both ∧
          (info (lookupName chas n)).glyph = (genStateGlyphs ct).not_a_node) :=
        fun hcon => ShowUsage.noConfusion hcon.1
      unfold renderRowGo
      simp only [if_neg hboth, if_neg hnum]
      rw [updFun_const_self]
      rw [h n (List.mem_cons_self n t), ih info (fun m hm => h m (List.mem_cons_of_mem n hm)),
        List.length_cons, List.replicate_succ]
      rfl

/-- Claim C10, counterexample to the stated consequence: the registry node
`gpu100` has an unpadded three-digit index, yet the rendering of column
100 displays its glyph `5`, not the absent glyph, because
`'{:02d}'.format(100)` is `100`. -/
theorem C10_counterexample :
    ((renderRow (updFun (fun _ => defaultNodeRec .ascii) "gpu100"
        (fun r => { r with glyph := "5" })) emptyFilters .ascii .cpu "31" "gpu" 100).1).getD 99 " " =
      "5" ∧
    "5" ≠ (genStateGlyphs CharType.ascii).not_a_node := by
  exact ⟨by decide, by decide⟩

/-- Witness for C10: the never-looked-up clause instantiated on an
all-default registry over two columns. -/
theorem C10_lookup_name_format_witness :
    (renderRowGo emptyFilters .ascii .cpu "31" "gpu" [1, 2]
      (fun _ => defaultNodeRec .ascii)).1 =
      List.replicate 2 (genStateGlyphs .ascii).not_a_node :=
  C10_lookup_name_format.2.1 (fun _ => defaultNodeRec .ascii) .ascii "31" "gpu" [1, 2]
    (fun _ _ => rfl)

end Orwell
